import Mathlib

/-!
Verification of the concurrent directory-tree scanner of this repository
(`src/lib/_scanner.py`, entry point `src/main.py`) against its
natural-language specification.

The scanner represents a directory tree as a Python dict with the reserved
keys `__path__` (string), `__files__` (list of file names) and optionally
`__error__` (string), child directories being stored under their own names
as nested dicts.  We embed Python dicts as insertion-ordered association
lists (`Dict`), the filesystem as a finite tree of directory entries
(`FSEntry`), and translate each function of `_scanner.py` into a Lean
function over these models.  Machine-level concerns (actual syscalls,
threads) are modelled as follows: `os.scandir` of a directory yields the
entry list recorded in the `FSEntry` tree followed by an optional `OSError`
(the `fault` component models an error raised during iteration, after the
recorded entries were already yielded); Python string methods
(`str.lower`, `str.startswith`, `str.endswith`, `str.split`) are modelled
character-wise over the underlying character lists; `fnmatch.fnmatchcase`
is modelled by a direct glob matcher (`globMatch`).
-/

/-- A Python value as it occurs in the scanner's tree dicts: a string
(`__path__`, `__error__`), a list of strings (`__files__`), or a nested
dict (a child directory node). -/
inductive PyVal where
  | vstr : String → PyVal
  | vlist : List String → PyVal
  | vdict : List (String × PyVal) → PyVal
deriving Repr

/-- A Python dict with string keys, as an insertion-ordered association
list (Python dicts preserve insertion order; assigning to an existing key
keeps its position). -/
abbrev Dict := List (String × PyVal)

/-- `d[k]` lookup returning `none` when the key is absent. -/
def dictGet (d : Dict) (k : String) : Option PyVal :=
  (d.find? (fun kv => kv.1 == k)).map (fun kv => kv.2)

/-- `k in d` (Python dict key containment). -/
def dictHasKey (d : Dict) (k : String) : Bool :=
  d.any (fun kv => kv.1 == k)

/-- `d[k] = v` (Python dict assignment): replaces the value in place if the
key is present, appends a new entry otherwise. -/
def dictSet (d : Dict) (k : String) (v : PyVal) : Dict :=
  if d.any (fun kv => kv.1 == k) then
    d.map (fun kv => if kv.1 == k then (k, v) else kv)
  else
    d ++ [(k, v)]

/-- Python `len` on the values that can occur in a tree dict. -/
def pyLen : PyVal → Nat
  | .vstr s => s.length
  | .vlist l => l.length
  | .vdict d => d.length

/-- Python truthiness of such a value (`if bucket["__files__"]:`). -/
def pyTruthy : PyVal → Bool
  | .vstr s => !(s.data.isEmpty)
  | .vlist l => !l.isEmpty
  | .vdict d => !d.isEmpty

def PyVal.isDict : PyVal → Bool
  | .vdict _ => true
  | _ => false

/-! ### Python string primitives (character-wise model) -/

/-- `str.lower()` / `str.casefold()`, modelled as a character-wise
ASCII lowering (`Char.toLower`). -/
def pyLower (s : String) : String := ⟨s.data.map Char.toLower⟩

/-- `s.startswith(pre)`. -/
def pyStartsWith (s pre : String) : Bool := pre.data.isPrefixOf s.data

/-- `s.endswith(suf)`. -/
def pyEndsWith (s suf : String) : Bool := suf.data.isSuffixOf s.data

/-- `str.split(sep)` for a one-character separator: `"".split(".") = [""]`,
`".x".split(".") = ["", "x"]`, `"a.b".split(".") = ["a", "b"]`. -/
def splitOnChar (c : Char) : List Char → List (List Char)
  | [] => [[]]
  | x :: t =>
    match splitOnChar c t with
    | [] => [[]]
    | r :: rs => if x == c then [] :: r :: rs else (x :: r) :: rs

/-! ### The glob matcher (`fnmatch.fnmatchcase`)

`fnmatch.translate` turns a shell pattern into an anchored regular
expression: `*` matches any (possibly empty) sequence, `?` any single
character, `[seq]` a character class (with `!` negation, a leading `]`
taken literally, and `a-b` ranges), and a `[` with no closing `]` is a
literal `[`.  `globMatch` implements exactly this semantics directly. -/

/-- Scan a character-class body for the closing `]`, returning the class
content and the remainder of the pattern. -/
def findClose : List Char → Option (List Char × List Char)
  | [] => none
  | c :: t =>
    if c = ']' then some ([], t)
    else (findClose t).map (fun ar => (c :: ar.1, ar.2))

theorem findClose_length {l : List Char} {a r : List Char}
    (h : findClose l = some (a, r)) : r.length < l.length := by
  induction l generalizing a r with
  | nil => simp [findClose] at h
  | cons c t ih =>
    rw [findClose] at h
    split at h
    · obtain ⟨rfl, rfl⟩ : a = [] ∧ r = t := by
        have h2 := Option.some.inj h
        exact ⟨(Prod.mk.inj h2.symm).1, (Prod.mk.inj h2.symm).2⟩
      simp
    · simp only [Option.map_eq_some'] at h
      obtain ⟨⟨a0, r0⟩, hfc, hpair⟩ := h
      obtain ⟨-, rfl⟩ : c :: a0 = a ∧ r0 = r :=
        ⟨(Prod.mk.inj hpair).1, (Prod.mk.inj hpair).2⟩
      have := ih hfc
      simp
      omega

/-- Parse the body of a bracket expression, after the opening `[` and an
optional negating `!`: an optional literal leading `]`, then content up to
the closing `]`. -/
def parseBracketBody (neg : Bool) : List Char → Option (Bool × List Char × List Char)
  | [] => none
  | c :: t =>
    if c = ']' then (findClose t).map (fun ar => (neg, ']' :: ar.1, ar.2))
    else (findClose (c :: t)).map (fun ar => (neg, ar.1, ar.2))

theorem parseBracketBody_length {neg n : Bool} {l content rest : List Char}
    (h : parseBracketBody neg l = some (n, content, rest)) :
    rest.length < l.length := by
  cases l with
  | nil => simp [parseBracketBody] at h
  | cons c t =>
    rw [parseBracketBody] at h
    split at h
    · simp only [Option.map_eq_some'] at h
      obtain ⟨⟨a0, r0⟩, hfc, hpair⟩ := h
      obtain ⟨-, rfl⟩ : (neg, ']' :: a0, r0).2 = (n, content, rest).2 ∧ r0 = rest := by
        rw [hpair]; exact ⟨rfl, ((Prod.mk.inj (Prod.mk.inj hpair).2).2)⟩
      have := findClose_length hfc
      simp
      omega
    · simp only [Option.map_eq_some'] at h
      obtain ⟨⟨a0, r0⟩, hfc, hpair⟩ := h
      have hr : r0 = rest := (Prod.mk.inj (Prod.mk.inj hpair).2).2
      subst hr
      exact findClose_length hfc

/-- Parse a bracket expression after the opening `[`.  Returns
`(negated, content, rest-of-pattern)`, or `none` when no closing `]`
exists (in which case `[` is a literal character). -/
def parseBracket : List Char → Option (Bool × List Char × List Char)
  | [] => none
  | c :: t =>
    if c = '!' then parseBracketBody true t
    else parseBracketBody false (c :: t)

theorem parseBracket_length {n : Bool} {l content rest : List Char}
    (h : parseBracket l = some (n, content, rest)) : rest.length < l.length := by
  cases l with
  | nil => simp [parseBracket] at h
  | cons c t =>
    rw [parseBracket] at h
    split at h
    · have := parseBracketBody_length h
      simp
      omega
    · exact parseBracketBody_length h

/-- Membership of a character in a bracket-expression body, with `a-b`
ranges (a trailing `-` is literal, as in the translated regex). -/
def charInSet : List Char → Char → Bool
  | [], _ => false
  | a :: '-' :: b :: t, c => (decide (a ≤ c) && decide (c ≤ b)) || charInSet t c
  | a :: t, c => (a == c) || charInSet t c

/-- The glob matcher: `globMatch p s` is `fnmatch.fnmatchcase(s, p)` on the
character lists of the string `s` and the pattern `p`. -/
def globMatch : List Char → List Char → Bool
  | [], s => s.isEmpty
  | p0 :: ps, s =>
    if p0 = '*' then
      globMatch ps s ||
        (match s with
         | [] => false
         | _ :: s1 => globMatch (p0 :: ps) s1)
    else if p0 = '?' then
      match s with
      | [] => false
      | _ :: s1 => globMatch ps s1
    else if p0 = '[' then
      match hb : parseBracket ps with
      | none =>
        match s with
        | [] => false
        | c :: s1 => (p0 == c) && globMatch ps s1
      | some (neg, content, rest) =>
        match s with
        | [] => false
        | c :: s1 => (charInSet content c != neg) && globMatch rest s1
    else
      match s with
      | [] => false
      | c :: s1 => (p0 == c) && globMatch ps s1
termination_by p s => (p.length, s.length)
decreasing_by
  · apply Prod.Lex.left; simp
  · apply Prod.Lex.right; simp
  · apply Prod.Lex.left; simp
  · apply Prod.Lex.left; simp
  · apply Prod.Lex.left
    have := parseBracket_length hb
    simp
    omega
  · apply Prod.Lex.left; simp

/-! ### Scanner configuration and match predicates (`_scanner.py` lines 9-66)

`ScanCfg` models the configuration taken from the `config` dict in
`Scanner.__init__` and passed to `_TaskManager`.  Python sets are modelled
as lists; every set-valued option is only ever used through membership
tests or an any-over-elements loop, so element order never influences a
result.  `search_file_names`/`search_file_extensions` may be `None`
(`Option.none`), and Python truthiness makes an empty set behave exactly
like `None`.  -/

/-- `_MAX_WORKERS = 32`. -/
def MAX_WORKERS : Nat := 32

structure ScanCfg where
  ignoreDirs : List String
  scanHiddenDirs : Bool
  scanHiddenFiles : Bool
  searchFileNames : Option (List String)
  searchFileExtensions : Option (List String)

/-- `_normalise`: a pattern containing none of the wildcard characters
`*?[` is wrapped as `*pattern*`. -/
def normalise (item : String) : String :=
  if item.data.any (fun c => c == '*' || c == '?' || c == '[') then item
  else "*" ++ item ++ "*"

/-- `_ignore_dir(path, name, ignore_dirs, scan_hidden)`. -/
def ignoreDir (ignoreDirs : List String) (scanHidden : Bool)
    (path name : String) : Bool :=
  ignoreDirs.contains name || ignoreDirs.contains path ||
    (!scanHidden && pyStartsWith name ".")

/-- One pattern test of the `any(...)` in `_should_consider_file`:
`fnmatch.fnmatchcase(filename.casefold(), _normalise(to_search).casefold())`. -/
def pyNameMatch (pat filename : String) : Bool :=
  globMatch (pyLower (normalise pat)).data (pyLower filename).data

/-- One extension test of the `for ext in search_file_extensions` loop in
`_should_consider_file`: lower both sides, and when the extension starts
with a dot replace it by `ext_lower.split(".")[1]` (the text between the
first and second dot); accept when the lowered filename ends with
`"." + ext_lower`.  The index `[1]` always exists in that branch because a
string starting with `.` splits into at least two pieces. -/
def pyExtSingle (filename ext : String) : Bool :=
  let extLower := pyLower ext
  let filenameLower := pyLower filename
  let extLower2 : String :=
    if pyStartsWith extLower "." then ⟨(splitOnChar '.' extLower.data).getD 1 []⟩
    else extLower
  pyEndsWith filenameLower ("." ++ extLower2)

/-- The extension loop of `_should_consider_file` (sets `should_consider`
and breaks on the first accepted extension, i.e. an exists). -/
def pyExtAccepts (filename : String) (exts : List String) : Bool :=
  exts.any (pyExtSingle filename)

/-- `_should_consider_file(filename, scan_hidden, search_file_names,
search_file_extensions)`.  The two `if search_file_names:` /
`if search_file_extensions:` guards use Python truthiness: `None` and the
empty set both skip the corresponding filter. -/
def shouldConsiderFile (cfg : ScanCfg) (filename : String) : Bool :=
  if !cfg.scanHiddenFiles && pyStartsWith filename "." then false
  else
    let nameOK : Bool :=
      match cfg.searchFileNames with
      | some pats =>
        if pats.isEmpty then true
        else pats.any (fun pat => pyNameMatch pat filename)
      | none => true
    if !nameOK then false
    else
      match cfg.searchFileExtensions with
      | some exts =>
        if exts.isEmpty then true
        else pyExtAccepts filename exts
      | none => true

/-! ### The filesystem model and the crawl engine
(`_TaskManager`, `_scanner.py` lines 69-183)

A directory's content is a list of `FSEntry` together with an optional
fault.  `FSEntry.file name` is an entry for which `entry.is_file
(follow_symlinks=False)` is true, `FSEntry.dir name sub fault` one for
which `entry.is_dir(follow_symlinks=False)` is true (carrying its own
listing outcome), and `FSEntry.other name` anything else (symlinks,
sockets, ...), which the scanner silently skips.  A directory's `fault`,
when `some msg`, models an `OSError` raised by `os.scandir`/iteration
*after* the recorded entries were yielded (a fault at open time is a
directory with no entries and `some msg`).  `entry.path` is
`parent_path + "/" + name`, as produced by `os.scandir` for a slash-free
directory argument.

The source crawls each subtree with a private breadth-first queue of
buckets mutated in place (`_crawl_dir`); since every queued bucket is
owned by exactly that traversal and distinct queue entries are disjoint
sub-dicts, the in-place breadth-first mutation produces the same final
tree as the direct recursive traversal embedded here (the specification
itself notes the final tree shape is the same for breadth-first or
depth-first).  A run is `Except String Dict`: `.error` models a scan-fatal
Python exception escaping a worker (for example the `AttributeError` from
`result["__files__"].append(...)` after the files slot was overwritten by
a subdirectory literally named `__files__`, or the `ValueError` raised by
`ThreadPoolExecutor(max_workers=0)`), which `begin_scan` re-raises. -/

inductive FSEntry where
  | file : String → FSEntry
  | dir : String → List FSEntry → Option String → FSEntry
  | other : String → FSEntry
deriving Repr

/-- The fresh bucket created for a directory:
`{"__path__": path, "__files__": []}`. -/
def initD (path : String) : Dict :=
  [("__path__", .vstr path), ("__files__", .vlist [])]

/-- Record an `OSError` caught while listing:
`result["__error__"] = str(e)`. -/
def addFault (fault : Option String) (d : Dict) : Dict :=
  match fault with
  | some msg => dictSet d "__error__" (.vstr msg)
  | none => d

/-- Append an accepted file name:
`result["__files__"].append(entry.name)`.  If the files slot no longer
holds a list (it was overwritten by a subdirectory literally named
`__files__`), Python raises `AttributeError`, which is scan-fatal. -/
def appendFile (d : Dict) (name : String) : Except String Dict :=
  match dictGet d "__files__" with
  | some (.vlist l) => .ok (dictSet d "__files__" (.vlist (l ++ [name])))
  | _ => .error "AttributeError: 'dict' object has no attribute 'append'"

/-- The entry loop shared by `skim_dir` and `_crawl_dir`, in skim form:
accepted files are appended, non-ignored subdirectories become fresh child
stubs, everything else is skipped.  No recursion into subdirectories. -/
def skimEntries (cfg : ScanCfg) (path : String) :
    List FSEntry → Dict → Except String Dict
  | [], d => .ok d
  | .file name :: rest, d =>
    if shouldConsiderFile cfg name then
      match appendFile d name with
      | .ok d1 => skimEntries cfg path rest d1
      | .error e => .error e
    else skimEntries cfg path rest d
  | .dir name _ _ :: rest, d =>
    if ignoreDir cfg.ignoreDirs cfg.scanHiddenDirs (path ++ "/" ++ name) name then
      skimEntries cfg path rest d
    else
      skimEntries cfg path rest (dictSet d name (.vdict (initD (path ++ "/" ++ name))))
  | .other _ :: rest, d => skimEntries cfg path rest d

/-- `_TaskManager.skim_dir(path)`: one level, child stubs, fault recorded
as `__error__`. -/
def skimDir (cfg : ScanCfg) (path : String) (entries : List FSEntry)
    (fault : Option String) : Except String Dict :=
  (skimEntries cfg path entries (initD path)).map (addFault fault)

/-- The full crawl of one directory as performed by `_crawl_dir`: the
entry loop of the directory itself interleaved with the crawls of the
sub-buckets it queues.  Relative to the source's breadth-first queue this
recursion performs the sub-crawls earlier, but each sub-crawl touches only
its own sub-dict, so the resulting tree is identical. -/
def crawlEntries (cfg : ScanCfg) (path : String) :
    List FSEntry → Dict → Except String Dict
  | [], d => .ok d
  | .file name :: rest, d =>
    if shouldConsiderFile cfg name then
      match appendFile d name with
      | .ok d1 => crawlEntries cfg path rest d1
      | .error e => .error e
    else crawlEntries cfg path rest d
  | .dir name sub sfault :: rest, d =>
    if ignoreDir cfg.ignoreDirs cfg.scanHiddenDirs (path ++ "/" ++ name) name then
      crawlEntries cfg path rest d
    else
      match (crawlEntries cfg (path ++ "/" ++ name) sub
          (initD (path ++ "/" ++ name))).map (addFault sfault) with
      | .ok c => crawlEntries cfg path rest (dictSet d name (.vdict c))
      | .error e => .error e
  | .other _ :: rest, d => crawlEntries cfg path rest d

/-- `_crawl_dir` on the bucket of a directory whose listing yields
`entries` then `fault`. -/
def crawlDir (cfg : ScanCfg) (path : String) (entries : List FSEntry)
    (fault : Option String) : Except String Dict :=
  (crawlEntries cfg path entries (initD path)).map (addFault fault)

/-- The worker loop of `begin_scan`: one `_crawl_dir` per child stub of the
root bucket, each crawl writing its finished sub-dict back over the stub.
The source submits one future per dict-valued item of the root bucket;
those items are exactly the stubs created for the non-ignored
subdirectories walked here. -/
def crawlChildren (cfg : ScanCfg) (path : String) :
    List FSEntry → Dict → Except String Dict
  | [], d => .ok d
  | .dir name sub sfault :: rest, d =>
    if ignoreDir cfg.ignoreDirs cfg.scanHiddenDirs (path ++ "/" ++ name) name then
      crawlChildren cfg path rest d
    else
      match crawlDir cfg (path ++ "/" ++ name) sub sfault with
      | .ok c => crawlChildren cfg path rest (dictSet d name (.vdict c))
      | .error e => .error e
  | _ :: rest, d => crawlChildren cfg path rest d

/-- `_TaskManager.begin_scan()`.  Returns the scan outcome together with
the final value of `self._max_workers` (0 until line 168 assigns
`min(root_width, _MAX_WORKERS)`).  Steps, exactly as in the source:
skim the root; return it as-is if `"__error__" in result_bucket`; count
the dict-valued items (`root_width`); `ThreadPoolExecutor(max_workers=0)`
raises `ValueError("max_workers must be greater than 0")` when the
computed worker count is zero; otherwise crawl every child stub and
re-raise the first worker exception, if any. -/
def beginScan (cfg : ScanCfg) (path : String) (entries : List FSEntry)
    (fault : Option String) : Except String Dict × Nat :=
  match skimDir cfg path entries fault with
  | .error e => (.error e, 0)
  | .ok d =>
    if dictHasKey d "__error__" then (.ok d, 0)
    else
      let rootWidth := d.countP (fun kv => kv.2.isDict)
      let maxWorkers := min rootWidth MAX_WORKERS
      if maxWorkers = 0 then
        (.error "ValueError: max_workers must be greater than 0", maxWorkers)
      else
        match crawlChildren cfg path entries d with
        | .ok d1 => (.ok d1, maxWorkers)
        | .error e => (.error e, maxWorkers)

/-- `Scanner._deep_scan_dir()`.  `rootOk` models
`self._root_path.exists() and self._root_path.is_dir()`; when false the
method installs a single error bucket without touching the task manager
(so `workers_deployed` stays 0), otherwise it runs `begin_scan`. -/
def deepScanDir (cfg : ScanCfg) (rootOk : Bool) (path : String)
    (entries : List FSEntry) (fault : Option String) : Except String Dict × Nat :=
  if rootOk then beginScan cfg path entries fault
  else
    (.ok [("__path__", .vstr path), ("__files__", .vlist []),
          ("__error__", .vstr ("Provided path '" ++ path ++ "' does not exist."))], 0)

/-! ### Claim C4: extension filtering -/

/-- The extension comparand the source actually uses: lowered, and when it
starts with a dot, `ext_lower.split(".")[1]` — the text between the first
and the second dot, everything after a second dot being discarded. -/
def pyNormExt (ext : String) : String :=
  let e := pyLower ext
  if pyStartsWith e "." then ⟨(splitOnChar '.' e.data).getD 1 []⟩ else e

/-- The extension acceptance predicate exactly as the specification words
it: the name must end, case-insensitively, with `.` + the configured
extension, where only a leading dot of the configured extension is
stripped before comparison. -/
def specExtAccepts (filename : String) (exts : List String) : Bool :=
  exts.any (fun ext =>
    let e := pyLower ext
    let e2 : String := if pyStartsWith e "." then ⟨e.data.drop 1⟩ else e
    pyEndsWith (pyLower filename) ("." ++ e2))

theorem pyEndsWith_iff {s t : String} :
    pyEndsWith s t = true ↔ t.data <:+ s.data := by
  simp [pyEndsWith, List.isSuffixOf_iff_suffix]

theorem pyExtSingle_iff {filename ext : String} :
    pyExtSingle filename ext = true ↔
      ('.' :: (pyNormExt ext).data) <:+ (pyLower filename).data := by
  have h1 : pyExtSingle filename ext =
      pyEndsWith (pyLower filename) ("." ++ pyNormExt ext) := rfl
  rw [h1, pyEndsWith_iff, String.data_append]
  exact Iff.rfl

/-- **Claim C4, counterexample.**  The claim states that under extension
filtering a name is accepted iff it ends, case-insensitively, with `.`
followed by a configured extension *with only a leading dot stripped*.
For the configured set `{".tar.gz"}` the source keeps only
`".tar.gz".split(".")[1] = "tar"`, so `"archive.tar.gz"`, which the
claim's predicate accepts (it ends with `".tar.gz"`), is rejected by the
code. -/
theorem claim_C4_counterexample :
    shouldConsiderFile ⟨[], true, true, none, some [".tar.gz"]⟩ "archive.tar.gz" = false ∧
    specExtAccepts "archive.tar.gz" [".tar.gz"] = true ∧
    shouldConsiderFile ⟨[], true, true, none, some ["tar.gz"]⟩ "archive.tar.gz" = true :=
  ⟨rfl, rfl, rfl⟩

/-- **Claim C4, amended.**  For every file name and every configured
extension set (reaching `_should_consider_file` with no name filter and
hidden files allowed), the name is accepted under extension filtering iff
it ends, case-insensitively, with `.` followed by the *source-normalised*
form of one of the configured extensions: lowered and, when the extension
begins with a dot, truncated to `split(".")[1]` — the text between the
leading dot and the next dot — rather than merely stripped of the leading
dot. -/
theorem claim_C4_amended (name : String) (exts : List String) (hne : exts ≠ []) :
    shouldConsiderFile ⟨[], true, true, none, some exts⟩ name = true ↔
      ∃ ext ∈ exts, ('.' :: (pyNormExt ext).data) <:+ (pyLower name).data := by
  unfold shouldConsiderFile
  simp only [Bool.false_and, Bool.not_false]
  have hne' : exts.isEmpty = false := by
    cases exts with
    | nil => exact absurd rfl hne
    | cons a t => rfl
  simp [hne', pyExtAccepts, ← pyExtSingle_iff]

/-- Witness for `claim_C4_amended`, covering the specification's examples:
`{"pdf"}` matches `"Report.PDF"` and not `"Report.pdf.txt"`. -/
theorem claim_C4_amended_witness :
    (["pdf"] ≠ ([] : List String)) ∧
    (shouldConsiderFile ⟨[], true, true, none, some ["pdf"]⟩ "Report.PDF" = true ↔
      ∃ ext ∈ ["pdf"], ('.' :: (pyNormExt ext).data) <:+ (pyLower "Report.PDF").data) ∧
    shouldConsiderFile ⟨[], true, true, none, some ["pdf"]⟩ "Report.PDF" = true ∧
    shouldConsiderFile ⟨[], true, true, none, some ["pdf"]⟩ "Report.pdf.txt" = false :=
  ⟨by simp, claim_C4_amended "Report.PDF" ["pdf"] (by simp), rfl, rfl⟩

/-! ### Tree reducers (`Scanner._summarize`, `search_scan`'s
`_compile_result`; `_scanner.py` lines 245-263 and 323-344) -/

mutual
/-- `Scanner._summarize(bucket)`, returning
`(error_count, dir_count, file_count)`: `(1, 0, 0)` when `"__error__" in
bucket`, otherwise `len(bucket) - 2` plus recursive dir counts,
`len(bucket["__files__"])` plus recursive file counts, and the recursive
error counts, recursing into every dict-valued item.  (`len` applies
Python `len` to whatever value sits in the files slot; a missing files
slot would raise `KeyError` in the source — it is totalised to 0 here and
never reached on scan-produced buckets, which always carry the slot.) -/
def pySummarize (d : Dict) : Nat × Nat × Nat :=
  if dictHasKey d "__error__" then (1, 0, 0)
  else
    let kids := sumKids d
    (kids.1, d.length - 2 + kids.2.1,
      (match dictGet d "__files__" with | some v => pyLen v | none => 0) + kids.2.2)
termination_by (sizeOf d, 1)

/-- The `for _, value in bucket.items(): if isinstance(value, dict)` loop
of `_summarize`, summing the recursive triples. -/
def sumKids : List (String × PyVal) → Nat × Nat × Nat
  | [] => (0, 0, 0)
  | (_, .vdict sub) :: rest =>
    let s := pySummarize sub
    let r := sumKids rest
    (s.1 + r.1, s.2.1 + r.2.1, s.2.2 + r.2.2)
  | _ :: rest => sumKids rest
termination_by l => (sizeOf l, 0)
end

mutual
/-- `_compile_result(bucket)` of `Scanner.search_scan`, threading the
`search_result` dict as `acc`: an errored bucket contributes nothing and
is not descended into; otherwise, when the files slot is truthy,
`search_result[bucket["__path__"]] = bucket["__files__"]`, then recurse
into every dict-valued item.  (A dict-valued path would raise `TypeError:
unhashable type` in the source and a missing files slot `KeyError`; both
are totalised to "no entry" here and never reached on well-formed
scan-produced buckets.) -/
def compileResult (d : Dict) (acc : List (String × PyVal)) : List (String × PyVal) :=
  if dictHasKey d "__error__" then acc
  else
    let acc1 :=
      match dictGet d "__files__" with
      | some fv =>
        if pyTruthy fv then
          match dictGet d "__path__" with
          | some (.vstr p) => dictSet acc p fv
          | _ => acc
        else acc
      | none => acc
    compileKids d acc1
termination_by (sizeOf d, 1)

/-- The child loop of `_compile_result`. -/
def compileKids : List (String × PyVal) → List (String × PyVal) → List (String × PyVal)
  | [], acc => acc
  | (_, .vdict sub) :: rest, acc => compileKids rest (compileResult sub acc)
  | _ :: rest, acc => compileKids rest acc
termination_by l _ => (sizeOf l, 0)
end

/-- `search_scan`'s result for a completed tree: `_compile_result` run on
it with an initially empty `search_result`. -/
def pyFlatten (d : Dict) : List (String × PyVal) := compileResult d []

/-! ### The abstract tree

`Node` is the specification's `TreeNode`: a path, the ordered file list,
the optional error, and the named children in insertion order.  `toDict`
is its faithful dict representation — exactly the key layout the crawl
builds: `__path__`, `__files__`, the children in discovery order, then
`__error__` if the listing faulted. -/

inductive Node where
  | mk : String → List String → Option String → List (String × Node) → Node
deriving Repr

def Node.path : Node → String
  | .mk p _ _ _ => p

def Node.files : Node → List String
  | .mk _ fs _ _ => fs

def Node.error : Node → Option String
  | .mk _ _ err _ => err

def Node.children : Node → List (String × Node)
  | .mk _ _ _ cs => cs

/-- The trailing `__error__` entry of a bucket. -/
def errTail : Option String → Dict
  | some e => [("__error__", .vstr e)]
  | none => []

mutual
def Node.toDict : Node → Dict
  | .mk p fs err cs =>
    ("__path__", .vstr p) :: ("__files__", .vlist fs) ::
      (childrenToDict cs ++ errTail err)
termination_by n => (sizeOf n, 1)

def childrenToDict : List (String × Node) → Dict
  | [] => []
  | (n, c) :: rest => (n, .vdict c.toDict) :: childrenToDict rest
termination_by l => (sizeOf l, 0)
end

/-- A name that collides with one of the bucket metadata keys. -/
def reservedName (n : String) : Bool :=
  n == "__path__" || n == "__files__" || n == "__error__"

def distinctKeys : List String → Bool
  | [] => true
  | x :: t => !t.contains x && distinctKeys t

mutual
/-- Well-formedness of an abstract tree: no child is keyed by a reserved
name, sibling keys are distinct, recursively.  Every tree the scan
produces on a filesystem without reserved-named directories satisfies
this. -/
def WFnode : Node → Bool
  | .mk _ _ _ cs =>
    cs.all (fun nc => !reservedName nc.1) &&
      distinctKeys (cs.map Prod.fst) && WFchildren cs
termination_by n => (sizeOf n, 1)

def WFchildren : List (String × Node) → Bool
  | [] => true
  | (_, c) :: rest => WFnode c && WFchildren rest
termination_by l => (sizeOf l, 0)
end

mutual
/-- The summary as the specification describes it: an errored node
contributes `(1, 0, 0)` and is not descended into; any other node
contributes `len(children)` directories and `len(files)` files plus the
recursive sums; the root itself is counted by no one. -/
def specSummarize : Node → Nat × Nat × Nat
  | .mk _ fs err cs =>
    match err with
    | some _ => (1, 0, 0)
    | none =>
      let k := specSumKids cs
      (k.1, cs.length + k.2.1, fs.length + k.2.2)
termination_by n => (sizeOf n, 1)

def specSumKids : List (String × Node) → Nat × Nat × Nat
  | [] => (0, 0, 0)
  | (_, c) :: rest =>
    let s := specSummarize c
    let r := specSumKids rest
    (s.1 + r.1, s.2.1 + r.2.1, s.2.2 + r.2.2)
termination_by l => (sizeOf l, 0)
end

/-! ### Claim C1: zero fan-out crashes the executor -/

/-- **Claim C1 (code bug).**  For a root that lists successfully but has
no child directories after filtering, the claim (and §4.3 step 2 of the
specification) says the scan returns the already-complete single-node
tree.  The code instead computes `max_workers = min(0, 32) = 0` and
`ThreadPoolExecutor(max_workers=0)` raises
`ValueError("max_workers must be greater than 0")`, so `deep_scan` on any
flat directory crashes.  The second conjunct exhibits the complete
single-node tree `skim_dir` had already produced before the crash. -/
theorem claim_C1_flat_root_raises :
    beginScan ⟨[], true, true, none, none⟩ "/data" [.file "a.txt", .file "b.txt"] none =
      (.error "ValueError: max_workers must be greater than 0", 0) ∧
    skimDir ⟨[], true, true, none, none⟩ "/data" [.file "a.txt", .file "b.txt"] none =
      .ok [("__path__", .vstr "/data"), ("__files__", .vlist ["a.txt", "b.txt"])] :=
  ⟨rfl, rfl⟩

/-! ### Claim C6: nonexistent or non-directory root -/

/-- **Claim C6.**  When the root path does not exist or is not a directory
(`rootOk = false`), `_deep_scan_dir` installs — for any configuration and
whatever the path would have contained — the single root bucket with
`__error__` set, an empty files list and no children, without running
`begin_scan` (so `workers_deployed` stays 0), and `_summarize` of that
tree is `(1, 0, 0)`. -/
theorem claim_C6_missing_root (cfg : ScanCfg) (path : String)
    (entries : List FSEntry) (fault : Option String) :
    deepScanDir cfg false path entries fault =
      (.ok [("__path__", .vstr path), ("__files__", .vlist []),
            ("__error__", .vstr ("Provided path '" ++ path ++ "' does not exist."))], 0) ∧
    pySummarize [("__path__", .vstr path), ("__files__", .vlist []),
        ("__error__", .vstr ("Provided path '" ++ path ++ "' does not exist."))] =
      (1, 0, 0) := by
  refine ⟨rfl, ?_⟩
  rw [pySummarize]
  simp [dictHasKey]

/-! ### Claim C10: root-path resolution in `Scanner.__init__` -/

/-- `pathlib.Path(s).expanduser()` restricted to the shapes the scanner
produces: a path equal to `~` becomes the home directory, a path starting
with `~/` has the `~` replaced by the home directory, anything else is
returned unchanged (the `~user` form, which the scanner's constructor can
only receive from a caller-supplied `~`-prefixed string, is out of scope
of the claim and left unexpanded).  Path-text normalisation (collapsing
duplicate slashes) is not modelled; paths are plain strings. -/
def expanduserModel (home s : String) : String :=
  if s == "~" then home
  else if pyStartsWith s "~/" then ⟨home.data ++ s.data.drop 1⟩
  else s

/-- `Scanner.__init__` lines 188-192: a directory starting with neither
`~` nor `/` is prefixed with `~/`, then the result is tilde-expanded. -/
def scannerRootPath (home directory : String) : String :=
  let directory :=
    if !pyStartsWith directory "~" then
      (if !pyStartsWith directory "/" then "~/" ++ directory else directory)
    else directory
  expanduserModel home directory

/-- **Claim C10.**  A directory string starting with neither `/` nor `~`
is resolved against the user's home directory — `home ++ "/" ++ dir`,
never a path relative to the working directory. -/
theorem claim_C10_relative_root (home dir : String)
    (h1 : pyStartsWith dir "~" = false) (h2 : pyStartsWith dir "/" = false) :
    scannerRootPath home dir = home ++ "/" ++ dir := by
  unfold scannerRootPath
  rw [h1, h2]
  simp only [Bool.not_false, if_true]
  unfold expanduserModel
  have hdata : ("~/" ++ dir).data = '~' :: '/' :: dir.data := by
    rw [String.data_append]
    rfl
  have hne : (("~/" ++ dir) == "~") = false := by
    apply beq_false_of_ne
    intro hcontra
    have := congrArg String.data hcontra
    rw [hdata] at this
    simp at this
  have hpre : pyStartsWith ("~/" ++ dir) "~/" = true := by
    simp [pyStartsWith, hdata, List.isPrefixOf]
  rw [hne, hpre]
  simp only [if_true, Bool.false_eq_true, if_false]
  apply String.ext
  rw [hdata]
  show home.data ++ ('/' :: dir.data) = (home ++ "/" ++ dir).data
  rw [String.data_append, String.data_append]
  rw [List.append_assoc]
  rfl

/-- Witness for `claim_C10_relative_root` at `home = "/home/u"`,
`dir = "docs"`. -/
theorem claim_C10_witness :
    pyStartsWith "docs" "~" = false ∧ pyStartsWith "docs" "/" = false ∧
    scannerRootPath "/home/u" "docs" = "/home/u" ++ "/" ++ "docs" :=
  ⟨rfl, rfl, claim_C10_relative_root "/home/u" "docs" rfl rfl⟩

/-! ### Claim C8: bare substring patterns -/

theorem globMatch_nil (s : List Char) : globMatch [] s = s.isEmpty := by
  rw [globMatch]

theorem globMatch_star (ps s : List Char) :
    globMatch ('*' :: ps) s =
      (globMatch ps s ||
        match s with
        | [] => false
        | _ :: s1 => globMatch ('*' :: ps) s1) := by
  rw [globMatch.eq_def]
  simp

theorem globMatch_lit (p0 : Char) (ps s : List Char)
    (h1 : p0 ≠ '*') (h2 : p0 ≠ '?') (h3 : p0 ≠ '[') :
    globMatch (p0 :: ps) s =
      (match s with
       | [] => false
       | c :: s1 => (p0 == c) && globMatch ps s1) := by
  rw [globMatch.eq_def]
  simp [h1, h2, h3]

/-- A leading `*` consumes an arbitrary prefix of the string: the rest of
the pattern must match some suffix. -/
theorem globMatch_star_iff (ps s : List Char) :
    globMatch ('*' :: ps) s = true ↔ ∃ t, t <:+ s ∧ globMatch ps t = true := by
  induction s with
  | nil =>
    rw [globMatch_star]
    simp
  | cons c s1 ih =>
    rw [globMatch_star]
    simp only [Bool.or_eq_true]
    constructor
    · rintro (h | h)
      · exact ⟨c :: s1, List.suffix_rfl, h⟩
      · obtain ⟨t, hts, hgm⟩ := ih.mp h
        exact ⟨t, hts.trans (List.suffix_cons c s1), hgm⟩
    · rintro ⟨t, hts, hgm⟩
      rcases List.suffix_cons_iff.mp hts with rfl | hts1
      · exact Or.inl hgm
      · exact Or.inr (ih.mpr ⟨t, hts1, hgm⟩)

/-- A wildcard-free pattern followed by `*` matches exactly the strings it
prefixes. -/
theorem globMatch_lit_append_star (q : List Char)
    (hq : q.all (fun c => !(c == '*' || c == '?' || c == '[')) = true) :
    ∀ t : List Char, (globMatch (q ++ ['*']) t = true ↔ q <+: t) := by
  induction q with
  | nil =>
    intro t
    simp only [List.nil_append]
    constructor
    · intro _
      exact List.nil_prefix
    · intro _
      rw [globMatch_star_iff]
      refine ⟨[], List.nil_suffix, ?_⟩
      rw [globMatch_nil]
      rfl
  | cons a q1 ih =>
    intro t
    rw [List.all_cons, Bool.and_eq_true] at hq
    obtain ⟨ha, hq1⟩ := hq
    obtain ⟨⟨ha1, ha2⟩, ha3⟩ : (¬(a = '*') ∧ ¬(a = '?')) ∧ ¬(a = '[') := by
      simpa using ha
    rw [List.cons_append, globMatch_lit a _ t ha1 ha2 ha3]
    cases t with
    | nil => simp
    | cons b t1 =>
      simp only [List.cons_prefix_cons]
      rw [Bool.and_eq_true, beq_iff_eq, ih hq1 t1]

/-- `*q*` with `q` wildcard-free matches exactly the strings containing
`q` as a contiguous substring. -/
theorem globMatch_contains (q s : List Char)
    (hq : q.all (fun c => !(c == '*' || c == '?' || c == '[')) = true) :
    globMatch ('*' :: (q ++ ['*'])) s = true ↔ q <:+: s := by
  rw [globMatch_star_iff]
  constructor
  · rintro ⟨t, hts, hgm⟩
    exact List.infix_iff_prefix_suffix.mpr
      ⟨t, (globMatch_lit_append_star q hq t).mp hgm, hts⟩
  · intro h
    obtain ⟨t, hpre, hsuf⟩ := List.infix_iff_prefix_suffix.mp h
    exact ⟨t, hsuf, (globMatch_lit_append_star q hq t).mpr hpre⟩

/-- The wildcard test of `_normalise`, negated: true when the pattern
contains none of `*?[`. -/
def noWildcard (pat : String) : Bool :=
  !(pat.data.any (fun c => c == '*' || c == '?' || c == '['))

/-- `Char.toLower` never turns a non-wildcard character into a wildcard
(it only maps `A`-`Z` into `a`-`z`). -/
theorem toLower_not_wild (c : Char) (h : (c == '*' || c == '?' || c == '[') = false) :
    (c.toLower == '*' || c.toLower == '?' || c.toLower == '[') = false := by
  by_cases hcond : c.toNat ≥ 65 ∧ c.toNat ≤ 90
  · have hlow : c.toLower = Char.ofNat (c.toNat + 32) := by
      unfold Char.toLower
      exact if_pos hcond
    obtain ⟨h1, h2⟩ := hcond
    have hv : (c.toNat + 32).isValidChar := by
      constructor
      omega
    have ht : (Char.ofNat (c.toNat + 32)).toNat = c.toNat + 32 := by
      unfold Char.ofNat
      rw [dif_pos hv]
      rfl
    rw [hlow]
    simp only [Bool.or_eq_false_iff]
    refine ⟨⟨?_, ?_⟩, ?_⟩
    · apply beq_false_of_ne
      intro hcontra
      have h3 := congrArg Char.toNat hcontra
      rw [ht, show ('*').toNat = 42 from rfl] at h3
      omega
    · apply beq_false_of_ne
      intro hcontra
      have h3 := congrArg Char.toNat hcontra
      rw [ht, show ('?').toNat = 63 from rfl] at h3
      omega
    · apply beq_false_of_ne
      intro hcontra
      have h3 := congrArg Char.toNat hcontra
      rw [ht, show ('[').toNat = 91 from rfl] at h3
      omega
  · have hlow : c.toLower = c := by
      unfold Char.toLower
      exact if_neg hcond
    rw [hlow]
    exact h

/-- **Claim C8.**  For a name pattern with no wildcard characters,
`_should_consider_file` (hidden files allowed, no extension filter)
accepts a file name against that pattern iff the pattern occurs
case-insensitively as a contiguous substring anywhere in the file name. -/
theorem claim_C8_bare_substring (pat name : String) (h : noWildcard pat = true) :
    (shouldConsiderFile ⟨[], true, true, some [pat], none⟩ name = true ↔
      (pyLower pat).data <:+: (pyLower name).data) := by
  have hsc : shouldConsiderFile ⟨[], true, true, some [pat], none⟩ name =
      pyNameMatch pat name := by
    unfold shouldConsiderFile
    simp
  have hcond : pat.data.any (fun c => c == '*' || c == '?' || c == '[') = false := by
    simpa [noWildcard] using h
  have hnorm : normalise pat = "*" ++ pat ++ "*" := by
    unfold normalise
    rw [hcond]
    rfl
  have hdata : (pyLower (normalise pat)).data = '*' :: ((pyLower pat).data ++ ['*']) := by
    rw [hnorm]
    show (("*" ++ pat ++ "*").data.map Char.toLower) = _
    rw [String.data_append, String.data_append]
    show ((['*'] ++ pat.data ++ ['*']).map Char.toLower) = _
    simp [pyLower]
  have hq : ((pyLower pat).data).all (fun c => !(c == '*' || c == '?' || c == '[')) = true := by
    show (pat.data.map Char.toLower).all _ = true
    rw [List.all_map]
    rw [List.all_eq_true]
    intro c hc
    have hcfalse : (c == '*' || c == '?' || c == '[') = false := by
      have := List.any_eq_false.mp (by exact hcond) c hc
      simpa using this
    simpa using toLower_not_wild c hcfalse
  rw [hsc]
  unfold pyNameMatch
  rw [hdata, globMatch_contains _ _ hq]

/-- Witness for `claim_C8_bare_substring`: pattern `"scan"` matches
`"my_scan_report.txt"`. -/
theorem claim_C8_witness :
    noWildcard "scan" = true ∧
    (shouldConsiderFile ⟨[], true, true, some ["scan"], none⟩ "my_scan_report.txt" = true ↔
      (pyLower "scan").data <:+: (pyLower "my_scan_report.txt").data) ∧
    shouldConsiderFile ⟨[], true, true, some ["scan"], none⟩ "my_scan_report.txt" = true :=
  ⟨rfl, claim_C8_bare_substring "scan" "my_scan_report.txt" rfl, by
    simp [shouldConsiderFile, pyNameMatch, normalise, pyLower, globMatch]⟩

/-! ### Claim C3: the summary reducer -/

/-- Strong induction on `sizeOf`, used for the nested tree recursions. -/
theorem sizeOf_strongInd {α : Type u} [SizeOf α] (P : α → Prop)
    (h : ∀ x, (∀ y, sizeOf y < sizeOf x → P y) → P x) : ∀ x, P x := fun x =>
  h x (fun y _ => sizeOf_strongInd P h y)
termination_by x => sizeOf x
decreasing_by assumption

theorem sizeOf_child_lt {n : String} {c : Node} {p : String} {fs : List String}
    {err : Option String} {cs : List (String × Node)} (hmem : (n, c) ∈ cs) :
    sizeOf c < sizeOf (Node.mk p fs err cs) := by
  have h1 : sizeOf (n, c) < sizeOf cs := List.sizeOf_lt_of_mem hmem
  have h3 : sizeOf c < sizeOf (n, c) := by
    simp
  have h2 : sizeOf cs < sizeOf (Node.mk p fs err cs) := by
    simp
  omega

theorem WFchildren_mem {cs : List (String × Node)} {n : String} {c : Node}
    (h : WFchildren cs = true) (hmem : (n, c) ∈ cs) : WFnode c = true := by
  induction cs with
  | nil => simp at hmem
  | cons nc rest ih =>
    obtain ⟨n1, c1⟩ := nc
    rw [WFchildren] at h
    rw [Bool.and_eq_true] at h
    rcases List.mem_cons.mp hmem with heq | hmem1
    · obtain ⟨-, rfl⟩ : n = n1 ∧ c = c1 :=
        ⟨(Prod.mk.inj heq).1, (Prod.mk.inj heq).2⟩
      exact h.1
    · exact ih h.2 hmem1

theorem childrenToDict_nil : childrenToDict [] = [] := by rw [childrenToDict]

theorem childrenToDict_cons (n : String) (c : Node) (rest : List (String × Node)) :
    childrenToDict ((n, c) :: rest) =
      (n, .vdict (Node.toDict c)) :: childrenToDict rest := by
  rw [childrenToDict]

theorem childrenToDict_any_key (cs : List (String × Node)) (k : String) :
    (childrenToDict cs).any (fun kv => kv.1 == k) =
      cs.any (fun nc => nc.1 == k) := by
  induction cs with
  | nil =>
    rw [childrenToDict_nil]
    rfl
  | cons nc rest ih =>
    obtain ⟨n, c⟩ := nc
    rw [childrenToDict_cons]
    simp [ih]

theorem childrenToDict_length (cs : List (String × Node)) :
    (childrenToDict cs).length = cs.length := by
  induction cs with
  | nil =>
    rw [childrenToDict_nil]
    rfl
  | cons nc rest ih =>
    obtain ⟨n, c⟩ := nc
    rw [childrenToDict_cons]
    simp [ih]

/-- In a well-formed bucket the error key is present iff the node's error
is set. -/
theorem toDict_hasKey_error {p : String} {fs : List String} {err : Option String}
    {cs : List (String × Node)} (hres : cs.all (fun nc => !reservedName nc.1) = true) :
    dictHasKey (Node.toDict (.mk p fs err cs)) "__error__" = err.isSome := by
  rw [Node.toDict]
  have hch : (childrenToDict cs).any (fun kv => kv.1 == "__error__") = false := by
    rw [childrenToDict_any_key]
    rw [List.any_eq_false]
    intro nc hmem
    have := List.all_eq_true.mp hres nc hmem
    simp only [reservedName, Bool.not_eq_true', Bool.or_eq_false_iff] at this
    simp [this.2]
  cases err with
  | some e =>
    simp [dictHasKey, errTail, hch]
  | none =>
    simp [dictHasKey, errTail, hch]

theorem toDict_get_files {p : String} {fs : List String} {err : Option String}
    {cs : List (String × Node)} :
    dictGet (Node.toDict (.mk p fs err cs)) "__files__" = some (.vlist fs) := by
  rw [Node.toDict]
  simp [dictGet, List.find?]

theorem sumKids_nil : sumKids [] = (0, 0, 0) := by rw [sumKids]

theorem sumKids_cons_vdict (k : String) (sub : List (String × PyVal))
    (rest : List (String × PyVal)) :
    sumKids ((k, .vdict sub) :: rest) =
      ((pySummarize sub).1 + (sumKids rest).1,
       (pySummarize sub).2.1 + (sumKids rest).2.1,
       (pySummarize sub).2.2 + (sumKids rest).2.2) := by
  rw [sumKids]

theorem sumKids_cons_vstr (k s : String) (rest : List (String × PyVal)) :
    sumKids ((k, .vstr s) :: rest) = sumKids rest := by
  rw [sumKids.eq_def]

theorem sumKids_cons_vlist (k : String) (l : List String) (rest : List (String × PyVal)) :
    sumKids ((k, .vlist l) :: rest) = sumKids rest := by
  rw [sumKids.eq_def]

theorem sumKids_append (a b : List (String × PyVal)) :
    sumKids (a ++ b) =
      ((sumKids a).1 + (sumKids b).1, (sumKids a).2.1 + (sumKids b).2.1,
        (sumKids a).2.2 + (sumKids b).2.2) := by
  induction a with
  | nil => simp [sumKids_nil]
  | cons kv rest ih =>
    obtain ⟨k, v⟩ := kv
    cases v with
    | vstr s => rw [List.cons_append, sumKids_cons_vstr, sumKids_cons_vstr, ih]
    | vlist l => rw [List.cons_append, sumKids_cons_vlist, sumKids_cons_vlist, ih]
    | vdict sub =>
      rw [List.cons_append, sumKids_cons_vdict, sumKids_cons_vdict, ih]
      simp
      omega

theorem sumKids_errTail (err : Option String) : sumKids (errTail err) = (0, 0, 0) := by
  cases err with
  | some e =>
    rw [errTail, sumKids_cons_vstr, sumKids_nil]
  | none =>
    rw [errTail, sumKids_nil]

theorem sumKids_children {cs : List (String × Node)}
    (hih : ∀ nc ∈ cs, pySummarize (Node.toDict nc.2) = specSummarize nc.2) :
    sumKids (childrenToDict cs) = specSumKids cs := by
  induction cs with
  | nil => rw [childrenToDict_nil, sumKids_nil, specSumKids]
  | cons nc rest ih =>
    obtain ⟨n, c⟩ := nc
    rw [childrenToDict_cons, sumKids_cons_vdict, specSumKids]
    rw [hih (n, c) (List.mem_cons_self _ _)]
    rw [ih (fun nc h => hih nc (List.mem_cons_of_mem _ h))]

/-- **Claim C3.**  On every well-formed completed tree, `_summarize`
computes exactly the specification's summary: an errored node contributes
`(1, 0, 0)` and is not descended into, every other node contributes its
child-directory count (`len(bucket) - 2`, i.e. the number of child-dict
entries) and file count plus the recursive sums, and the root is excluded
from the directory count (each node's children are counted by the node
itself, so no node counts the root). -/
theorem claim_C3_summarize : ∀ t : Node, WFnode t = true →
    pySummarize (Node.toDict t) = specSummarize t := by
  apply sizeOf_strongInd
  intro t ih hwf
  obtain ⟨p, fs, err, cs⟩ := t
  rw [WFnode] at hwf
  rw [Bool.and_eq_true, Bool.and_eq_true] at hwf
  obtain ⟨⟨hres, hkeys⟩, hchildwf⟩ := hwf
  have hihmem : ∀ nc ∈ cs, pySummarize (Node.toDict nc.2) = specSummarize nc.2 := by
    intro nc hmem
    obtain ⟨n, c⟩ := nc
    exact ih c (sizeOf_child_lt hmem) (WFchildren_mem hchildwf hmem)
  cases err with
  | some e =>
    rw [pySummarize, toDict_hasKey_error hres, specSummarize]
    rfl
  | none =>
    rw [pySummarize, toDict_hasKey_error hres]
    simp only [Option.isSome_none, Bool.false_eq_true, if_false]
    rw [specSummarize]
    rw [toDict_get_files]
    have hkids : sumKids (Node.toDict (.mk p fs none cs)) = specSumKids cs := by
      rw [Node.toDict, sumKids_cons_vstr, sumKids_cons_vlist]
      rw [sumKids_append, sumKids_errTail, sumKids_children hihmem]
      simp
    rw [hkids]
    have hlen : (Node.toDict (.mk p fs none cs)).length = 2 + cs.length := by
      rw [Node.toDict]
      simp [errTail, childrenToDict_length]
      omega
    rw [hlen]
    simp [pyLen]

/-- Witness for `claim_C3_summarize`: the specification's §8 scenario tree
(root `/data` with `files=["a.pdf"]`, one child `sub` with no files)
summarises to `(0, 1, 1)`. -/
theorem claim_C3_witness :
    WFnode (.mk "/data" ["a.pdf"] none [("sub", .mk "/data/sub" [] none [])]) = true ∧
    pySummarize (Node.toDict
        (.mk "/data" ["a.pdf"] none [("sub", .mk "/data/sub" [] none [])])) = (0, 1, 1) := by
  have hwf : WFnode (.mk "/data" ["a.pdf"] none [("sub", .mk "/data/sub" [] none [])]) = true := by
    rw [WFnode, WFchildren, WFnode, WFchildren]
    rfl
  refine ⟨hwf, ?_⟩
  rw [claim_C3_summarize _ hwf]
  rw [specSummarize, specSumKids, specSummarize, specSumKids]
  rfl

/-! ### Claim C5: the flatten reducer -/

mutual
/-- A node together with all its descendants. -/
def allNodes : Node → List Node
  | .mk p fs err cs => .mk p fs err cs :: allNodesChildren cs
termination_by n => (sizeOf n, 1)

def allNodesChildren : List (String × Node) → List Node
  | [] => []
  | (_, c) :: rest => allNodes c ++ allNodesChildren rest
termination_by l => (sizeOf l, 0)
end

/-- The flatten mapping exactly as claim C5 words it: every node of the
tree whose files list is non-empty contributes `(path, files)`; a node
with error set contributes nothing. -/
def claimFlattenSpec (t : Node) : List (String × List String) :=
  (allNodes t).filterMap (fun n =>
    if n.error.isNone && !n.files.isEmpty then some (n.path, n.files) else none)

mutual
/-- The flatten mapping as the code computes it: an errored node is
pruned *with its whole subtree*; any other node contributes its
`(path, files)` pair when its files list is non-empty, followed by its
children's contributions in order. -/
def specFlatten : Node → List (String × List String)
  | .mk p fs err cs =>
    match err with
    | some _ => []
    | none => (if fs.isEmpty then [] else [(p, fs)]) ++ specFlattenKids cs
termination_by n => (sizeOf n, 1)

def specFlattenKids : List (String × Node) → List (String × List String)
  | [] => []
  | (_, c) :: rest => specFlatten c ++ specFlattenKids rest
termination_by l => (sizeOf l, 0)
end

/-- **Claim C5, counterexample.**  A completed tree — produced here by a
real scan: root `/r` with child `a` whose listing faults after yielding
subdirectory `b`, and `b` holding `f.txt` — has a node (`/r/a/b`) with no
error and a non-empty files list, yet `search_scan`'s flatten returns the
empty mapping, because `_compile_result` prunes the *whole subtree* of
the errored node `a`, not just `a` itself. -/
theorem claim_C5_counterexample :
    beginScan ⟨[], true, true, none, none⟩ "/r"
        [.dir "a" [.dir "b" [.file "f.txt"] none] (some "boom")] none =
      (.ok [("__path__", .vstr "/r"), ("__files__", .vlist []),
            ("a", .vdict [("__path__", .vstr "/r/a"), ("__files__", .vlist []),
              ("b", .vdict [("__path__", .vstr "/r/a/b"), ("__files__", .vlist ["f.txt"])]),
              ("__error__", .vstr "boom")])], 1) ∧
    Node.toDict (.mk "/r" [] none [("a", .mk "/r/a" [] (some "boom")
        [("b", .mk "/r/a/b" ["f.txt"] none [])])]) =
      [("__path__", .vstr "/r"), ("__files__", .vlist []),
       ("a", .vdict [("__path__", .vstr "/r/a"), ("__files__", .vlist []),
         ("b", .vdict [("__path__", .vstr "/r/a/b"), ("__files__", .vlist ["f.txt"])]),
         ("__error__", .vstr "boom")])] ∧
    pyFlatten [("__path__", .vstr "/r"), ("__files__", .vlist []),
       ("a", .vdict [("__path__", .vstr "/r/a"), ("__files__", .vlist []),
         ("b", .vdict [("__path__", .vstr "/r/a/b"), ("__files__", .vlist ["f.txt"])]),
         ("__error__", .vstr "boom")])] = [] ∧
    claimFlattenSpec (.mk "/r" [] none [("a", .mk "/r/a" [] (some "boom")
        [("b", .mk "/r/a/b" ["f.txt"] none [])])]) = [("/r/a/b", ["f.txt"])] := by
  refine ⟨?_, ?_, ?_, ?_⟩
  · simp only [beginScan, skimDir, skimEntries, crawlChildren, crawlDir, crawlEntries,
      appendFile, dictGet, dictSet, dictHasKey, addFault, initD, shouldConsiderFile,
      ignoreDir, pyStartsWith, MAX_WORKERS, Except.map]
    rfl
  · simp only [Node.toDict, childrenToDict, errTail]
    rfl
  · simp only [pyFlatten, compileResult, compileKids, dictHasKey, dictGet, pyTruthy]
    rfl
  · simp only [claimFlattenSpec, allNodes, allNodesChildren]
    rfl

theorem compileKids_nil (acc : List (String × PyVal)) : compileKids [] acc = acc := by
  rw [compileKids]

theorem compileKids_cons_vdict (k : String) (sub : List (String × PyVal))
    (rest : List (String × PyVal)) (acc : List (String × PyVal)) :
    compileKids ((k, .vdict sub) :: rest) acc =
      compileKids rest (compileResult sub acc) := by
  rw [compileKids]

theorem compileKids_cons_vstr (k s : String) (rest : List (String × PyVal))
    (acc : List (String × PyVal)) :
    compileKids ((k, .vstr s) :: rest) acc = compileKids rest acc := by
  rw [compileKids.eq_def]

theorem compileKids_cons_vlist (k : String) (l : List String)
    (rest : List (String × PyVal)) (acc : List (String × PyVal)) :
    compileKids ((k, .vlist l) :: rest) acc = compileKids rest acc := by
  rw [compileKids.eq_def]

theorem toDict_get_path {p : String} {fs : List String} {err : Option String}
    {cs : List (String × Node)} :
    dictGet (Node.toDict (.mk p fs err cs)) "__path__" = some (.vstr p) := by
  rw [Node.toDict]
  simp [dictGet, List.find?]

theorem dictSet_fresh {acc : Dict} {k : String} {v : PyVal}
    (h : acc.any (fun kv => kv.1 == k) = false) :
    dictSet acc k v = acc ++ [(k, v)] := by
  rw [dictSet, h]
  rfl

theorem any_key_map_emit {l : List (String × List String)} {q : String}
    (h : q ∉ l.map Prod.fst) :
    (l.map (fun pf => (pf.1, PyVal.vlist pf.2))).any (fun kv => kv.1 == q) = false := by
  rw [List.any_eq_false]
  intro kv hkv
  rw [List.mem_map] at hkv
  obtain ⟨pf, hpf, rfl⟩ := hkv
  intro heq
  exact h (List.mem_map.mpr ⟨pf, hpf, eq_of_beq heq⟩)

/-- One step of `_compile_result` on a well-formed bucket. -/
theorem compileResult_toDict_step (p : String) (fs : List String)
    (err : Option String) (cs : List (String × Node)) (acc : Dict)
    (hres : cs.all (fun nc => !reservedName nc.1) = true) :
    compileResult (Node.toDict (.mk p fs err cs)) acc =
      (match err with
       | some _ => acc
       | none => compileKids (childrenToDict cs)
           (if fs.isEmpty then acc else dictSet acc p (.vlist fs))) := by
  rw [compileResult, toDict_hasKey_error hres]
  cases err with
  | some e => rfl
  | none =>
    simp only [Option.isSome_none, Bool.false_eq_true, if_false]
    rw [toDict_get_files, toDict_get_path]
    have hkeq : ∀ a : Dict, compileKids (Node.toDict (.mk p fs none cs)) a =
        compileKids (childrenToDict cs) a := by
      intro a
      rw [Node.toDict, compileKids_cons_vstr, compileKids_cons_vlist]
      rw [errTail, List.append_nil]
    rw [hkeq]
    cases hc : fs.isEmpty with
    | true =>
      simp [pyTruthy, hc]
    | false =>
      simp [pyTruthy, hc]

/-- The accumulator form of the flatten refinement. -/
theorem compileResult_toDict : ∀ t : Node, ∀ acc : Dict, WFnode t = true →
    ((specFlatten t).map Prod.fst).Nodup →
    (∀ q ∈ (specFlatten t).map Prod.fst, acc.any (fun kv => kv.1 == q) = false) →
    compileResult (Node.toDict t) acc =
      acc ++ (specFlatten t).map (fun pf => (pf.1, PyVal.vlist pf.2)) := by
  apply sizeOf_strongInd
    (P := fun t => ∀ acc : Dict, WFnode t = true →
      ((specFlatten t).map Prod.fst).Nodup →
      (∀ q ∈ (specFlatten t).map Prod.fst, acc.any (fun kv => kv.1 == q) = false) →
      compileResult (Node.toDict t) acc =
        acc ++ (specFlatten t).map (fun pf => (pf.1, PyVal.vlist pf.2)))
  intro t ih acc hwf hnd hfresh
  obtain ⟨p, fs, err, cs⟩ := t
  rw [WFnode] at hwf
  rw [Bool.and_eq_true, Bool.and_eq_true] at hwf
  obtain ⟨⟨hres, hkeys⟩, hchildwf⟩ := hwf
  rw [compileResult_toDict_step p fs err cs acc hres]
  -- the children loop, by induction over the child list
  have hkids : ∀ cs1 : List (String × Node), ∀ a : Dict,
      WFchildren cs1 = true →
      (∀ nc ∈ cs1, ∀ b : Dict, WFnode nc.2 = true →
        ((specFlatten nc.2).map Prod.fst).Nodup →
        (∀ q ∈ (specFlatten nc.2).map Prod.fst, b.any (fun kv => kv.1 == q) = false) →
        compileResult (Node.toDict nc.2) b =
          b ++ (specFlatten nc.2).map (fun pf => (pf.1, PyVal.vlist pf.2))) →
      ((specFlattenKids cs1).map Prod.fst).Nodup →
      (∀ q ∈ (specFlattenKids cs1).map Prod.fst, a.any (fun kv => kv.1 == q) = false) →
      compileKids (childrenToDict cs1) a =
        a ++ (specFlattenKids cs1).map (fun pf => (pf.1, PyVal.vlist pf.2)) := by
    intro cs1
    induction cs1 with
    | nil =>
      intro a hw hih hnd1 hf1
      rw [childrenToDict_nil, compileKids_nil, specFlattenKids]
      simp
    | cons nc rest ihl =>
      intro a hw hih hnd1 hf1
      obtain ⟨n, c⟩ := nc
      rw [childrenToDict_cons, compileKids_cons_vdict]
      rw [WFchildren, Bool.and_eq_true] at hw
      rw [specFlattenKids] at hnd1 hf1 ⊢
      rw [List.map_append] at hnd1 hf1 ⊢
      rw [List.nodup_append] at hnd1
      obtain ⟨hndc, hndrest, hdisj⟩ := hnd1
      have hstep : compileResult (Node.toDict c) a =
          a ++ (specFlatten c).map (fun pf => (pf.1, PyVal.vlist pf.2)) := by
        apply hih (n, c) (List.mem_cons_self _ _) a hw.1 hndc
        intro q hq
        exact hf1 q (List.mem_append_left _ hq)
      rw [hstep]
      rw [ihl (a ++ (specFlatten c).map (fun pf => (pf.1, PyVal.vlist pf.2))) hw.2
        (fun nc h => hih nc (List.mem_cons_of_mem _ h)) hndrest ?fresh]
      · rw [List.append_assoc]
      case fresh =>
        intro q hq
        rw [List.any_append]
        rw [hf1 q (List.mem_append_right _ hq)]
        rw [any_key_map_emit (fun hmem => hdisj hmem hq)]
        rfl
  have hihmem : ∀ nc ∈ cs, ∀ b : Dict, WFnode nc.2 = true →
      ((specFlatten nc.2).map Prod.fst).Nodup →
      (∀ q ∈ (specFlatten nc.2).map Prod.fst, b.any (fun kv => kv.1 == q) = false) →
      compileResult (Node.toDict nc.2) b =
        b ++ (specFlatten nc.2).map (fun pf => (pf.1, PyVal.vlist pf.2)) := by
    intro nc hmem b
    obtain ⟨n, c⟩ := nc
    exact ih c (sizeOf_child_lt hmem) b
  cases err with
  | some e =>
    rw [specFlatten]
    simp
  | none =>
    rw [specFlatten] at hnd hfresh ⊢
    simp only [] at hnd hfresh ⊢
    cases hc : fs.isEmpty with
    | true =>
      simp only [hc, if_true, List.nil_append] at hnd hfresh ⊢
      exact hkids cs acc hchildwf hihmem hnd hfresh
    | false =>
      simp only [hc, Bool.false_eq_true, if_false, List.singleton_append,
        List.map_cons] at hnd hfresh ⊢
      rw [List.nodup_cons] at hnd
      obtain ⟨hpnot, hndk⟩ := hnd
      have hpfresh : acc.any (fun kv => kv.1 == p) = false :=
        hfresh p (List.mem_cons_self _ _)
      rw [dictSet_fresh hpfresh]
      rw [hkids cs (acc ++ [(p, PyVal.vlist fs)]) hchildwf hihmem hndk ?fresh2]
      · rw [List.append_assoc]
        rfl
      case fresh2 =>
        intro q hq
        rw [List.any_append]
        rw [hfresh q (List.mem_cons_of_mem _ hq)]
        have hqp : ((p, PyVal.vlist fs).1 == q) = false := by
          apply beq_false_of_ne
          intro heq
          apply hpnot
          have hpq : p = q := heq
          rw [hpq]
          exact hq
        simp [hqp]

/-- **Claim C5, amended.**  On every well-formed completed tree with
distinct emitted paths, `search_scan`'s flatten returns exactly the
`(path, files)` pairs of the nodes whose files list is non-empty *and*
which are reachable from the root without passing through a node with
error set; an errored node and everything below it contribute nothing. -/
theorem claim_C5_amended (t : Node) (hwf : WFnode t = true)
    (hnd : ((specFlatten t).map Prod.fst).Nodup) :
    pyFlatten (Node.toDict t) =
      (specFlatten t).map (fun pf => (pf.1, PyVal.vlist pf.2)) := by
  rw [pyFlatten]
  rw [compileResult_toDict t [] hwf hnd (by intro q hq; rfl)]
  rfl

/-- Witness for `claim_C5_amended` on the §8 scenario tree. -/
theorem claim_C5_witness :
    WFnode (.mk "/data" ["a.pdf"] none [("sub", .mk "/data/sub" [] none [])]) = true ∧
    ((specFlatten (.mk "/data" ["a.pdf"] none
        [("sub", .mk "/data/sub" [] none [])])).map Prod.fst).Nodup ∧
    pyFlatten (Node.toDict (.mk "/data" ["a.pdf"] none
        [("sub", .mk "/data/sub" [] none [])])) = [("/data", PyVal.vlist ["a.pdf"])] := by
  have hwf : WFnode (.mk "/data" ["a.pdf"] none [("sub", .mk "/data/sub" [] none [])]) = true := by
    rw [WFnode, WFchildren, WFnode, WFchildren]
    rfl
  have hflat : specFlatten (.mk "/data" ["a.pdf"] none [("sub", .mk "/data/sub" [] none [])]) =
      [("/data", ["a.pdf"])] := by
    rw [specFlatten, specFlattenKids, specFlatten, specFlattenKids]
    rfl
  have hnd : ((specFlatten (.mk "/data" ["a.pdf"] none
      [("sub", .mk "/data/sub" [] none [])])).map Prod.fst).Nodup := by
    rw [hflat]
    simp
  refine ⟨hwf, hnd, ?_⟩
  rw [claim_C5_amended _ hwf hnd, hflat]
  rfl

/-! ### Claim C7: ignored directories never enter the tree -/

/-- All `(key, sub-dict)` pairs occurring anywhere in a tree dict: the
dict-valued entries of `d`, of their values, and so on. -/
def nestedEntries : Dict → List (String × Dict)
  | [] => []
  | (k, .vdict sub) :: rest => (k, sub) :: (nestedEntries sub ++ nestedEntries rest)
  | _ :: rest => nestedEntries rest
termination_by d => sizeOf d

theorem nestedEntries_nil : nestedEntries [] = [] := by rw [nestedEntries]

theorem nestedEntries_cons_vdict (k : String) (sub : Dict) (rest : Dict) :
    nestedEntries ((k, .vdict sub) :: rest) =
      (k, sub) :: (nestedEntries sub ++ nestedEntries rest) := by
  rw [nestedEntries]

theorem nestedEntries_cons_vstr (k s : String) (rest : Dict) :
    nestedEntries ((k, .vstr s) :: rest) = nestedEntries rest := by
  rw [nestedEntries.eq_def]

theorem nestedEntries_cons_vlist (k : String) (l : List String) (rest : Dict) :
    nestedEntries ((k, .vlist l) :: rest) = nestedEntries rest := by
  rw [nestedEntries.eq_def]

theorem nestedEntries_append (a b : Dict) :
    nestedEntries (a ++ b) = nestedEntries a ++ nestedEntries b := by
  induction a with
  | nil => rw [nestedEntries_nil, List.nil_append, List.nil_append]
  | cons kv rest ih =>
    obtain ⟨k, v⟩ := kv
    cases v with
    | vstr s => rw [List.cons_append, nestedEntries_cons_vstr, nestedEntries_cons_vstr, ih]
    | vlist l => rw [List.cons_append, nestedEntries_cons_vlist, nestedEntries_cons_vlist, ih]
    | vdict sub =>
      rw [List.cons_append, nestedEntries_cons_vdict, nestedEntries_cons_vdict, ih]
      simp

/-- Membership in a dict after an assignment. -/
theorem mem_dictSet {x : String × PyVal} {acc : Dict} {k : String} {v : PyVal}
    (h : x ∈ dictSet acc k v) : x ∈ acc ∨ x = (k, v) := by
  rw [dictSet] at h
  split at h
  · rw [List.mem_map] at h
    obtain ⟨y, hy, hfy⟩ := h
    by_cases hk : y.1 == k
    · right
      rw [if_pos hk] at hfy
      exact hfy.symm
    · left
      rw [if_neg hk] at hfy
      exact hfy ▸ hy
  · rcases List.mem_append.mp h with h1 | h1
    · exact Or.inl h1
    · right
      simpa using h1

/-- Nested entries after an assignment come from the old dict or from the
assigned value. -/
theorem nestedEntries_dictSet {x : String × Dict} {d : Dict} {k : String} {v : PyVal}
    (h : x ∈ nestedEntries (dictSet d k v)) :
    x ∈ nestedEntries d ∨
      ∃ sub, v = .vdict sub ∧ (x = (k, sub) ∨ x ∈ nestedEntries sub) := by
  rw [dictSet] at h
  split at h
  · rename_i hany
    clear hany
    induction d with
    | nil => rw [List.map_nil, nestedEntries_nil] at h; simp at h
    | cons kv rest ih =>
      obtain ⟨k1, v1⟩ := kv
      rw [List.map_cons] at h
      by_cases hk : (k1, v1).1 == k
      · rw [if_pos hk] at h
        cases v with
        | vdict sub =>
          rw [nestedEntries_cons_vdict] at h
          rcases List.mem_cons.mp h with h1 | h1
          · exact Or.inr ⟨sub, rfl, Or.inl h1⟩
          rcases List.mem_append.mp h1 with h2 | h2
          · exact Or.inr ⟨sub, rfl, Or.inr h2⟩
          · rcases ih h2 with h3 | h3
            · left
              cases v1 with
              | vdict sub1 =>
                rw [nestedEntries_cons_vdict]
                exact List.mem_cons_of_mem _ (List.mem_append_right _ h3)
              | vstr s => rw [nestedEntries_cons_vstr]; exact h3
              | vlist l => rw [nestedEntries_cons_vlist]; exact h3
            · exact Or.inr h3
        | vstr s =>
          rw [nestedEntries_cons_vstr] at h
          rcases ih h with h3 | h3
          · left
            cases v1 with
            | vdict sub1 =>
              rw [nestedEntries_cons_vdict]
              exact List.mem_cons_of_mem _ (List.mem_append_right _ h3)
            | vstr s1 => rw [nestedEntries_cons_vstr]; exact h3
            | vlist l1 => rw [nestedEntries_cons_vlist]; exact h3
          · exact Or.inr h3
        | vlist l =>
          rw [nestedEntries_cons_vlist] at h
          rcases ih h with h3 | h3
          · left
            cases v1 with
            | vdict sub1 =>
              rw [nestedEntries_cons_vdict]
              exact List.mem_cons_of_mem _ (List.mem_append_right _ h3)
            | vstr s1 => rw [nestedEntries_cons_vstr]; exact h3
            | vlist l1 => rw [nestedEntries_cons_vlist]; exact h3
          · exact Or.inr h3
      · rw [if_neg hk] at h
        cases v1 with
        | vdict sub1 =>
          rw [nestedEntries_cons_vdict] at h
          rcases List.mem_cons.mp h with h1 | h1
          · left
            rw [nestedEntries_cons_vdict]
            exact List.mem_cons.mpr (Or.inl h1)
          rcases List.mem_append.mp h1 with h2 | h2
          · left
            rw [nestedEntries_cons_vdict]
            exact List.mem_cons_of_mem _ (List.mem_append_left _ h2)
          · rcases ih h2 with h3 | h3
            · left
              rw [nestedEntries_cons_vdict]
              exact List.mem_cons_of_mem _ (List.mem_append_right _ h3)
            · exact Or.inr h3
        | vstr s1 =>
          rw [nestedEntries_cons_vstr] at h
          rcases ih h with h3 | h3
          · left
            rw [nestedEntries_cons_vstr]
            exact h3
          · exact Or.inr h3
        | vlist l1 =>
          rw [nestedEntries_cons_vlist] at h
          rcases ih h with h3 | h3
          · left
            rw [nestedEntries_cons_vlist]
            exact h3
          · exact Or.inr h3
  · rw [nestedEntries_append] at h
    rcases List.mem_append.mp h with h1 | h1
    · exact Or.inl h1
    · cases v with
      | vdict sub =>
        rw [nestedEntries_cons_vdict, nestedEntries_nil, List.append_nil] at h1
        rcases List.mem_cons.mp h1 with h2 | h2
        · exact Or.inr ⟨sub, rfl, Or.inl h2⟩
        · exact Or.inr ⟨sub, rfl, Or.inr h2⟩
      | vstr s =>
        rw [nestedEntries_cons_vstr, nestedEntries_nil] at h1
        simp at h1
      | vlist l =>
        rw [nestedEntries_cons_vlist, nestedEntries_nil] at h1
        simp at h1

theorem dictGet_cons (k1 : String) (v1 : PyVal) (rest : Dict) (k2 : String) :
    dictGet ((k1, v1) :: rest) k2 =
      if (k1 == k2) = true then some v1 else dictGet rest k2 := by
  rw [dictGet, dictGet, List.find?_cons]
  by_cases h : (k1 == k2) = true
  · simp [h]
  · simp [h]

theorem dictGet_dictSet_self (d : Dict) (k : String) (v : PyVal) :
    dictGet (dictSet d k v) k = some v := by
  rw [dictSet]
  split
  · rename_i hany
    induction d with
    | nil => simp at hany
    | cons kv rest ih =>
      obtain ⟨k1, v1⟩ := kv
      rw [List.map_cons]
      by_cases hk : (k1 == k) = true
      · rw [if_pos hk, dictGet_cons]
        simp
      · rw [if_neg hk, dictGet_cons, if_neg hk]
        apply ih
        rw [List.any_cons] at hany
        simpa [hk] using hany
  · rename_i hany
    induction d with
    | nil =>
      rw [List.nil_append, dictGet_cons]
      simp
    | cons kv rest ih =>
      obtain ⟨k1, v1⟩ := kv
      rw [List.any_cons] at hany
      have hk1 : ((k1, v1).1 == k) = false := by
        cases hx : ((k1, v1).1 == k) with
        | false => rfl
        | true => exact absurd (by rw [hx]; simp) hany
      have hrest : ¬(rest.any (fun kv => kv.1 == k) = true) := by
        intro hx
        exact hany (by rw [hx]; simp)
      rw [List.cons_append, dictGet_cons]
      rw [if_neg (by simpa using hk1)]
      exact ih hrest

theorem dictGet_dictSet_ne (d : Dict) (k k2 : String) (v : PyVal) (h : ¬(k2 = k)) :
    dictGet (dictSet d k v) k2 = dictGet d k2 := by
  rw [dictSet]
  split
  · rename_i hany
    clear hany
    induction d with
    | nil => rfl
    | cons kv rest ih =>
      obtain ⟨k1, v1⟩ := kv
      rw [List.map_cons]
      by_cases hk : (k1 == k) = true
      · rw [if_pos hk]
        rw [dictGet_cons, dictGet_cons]
        have hknotk2 : (k == k2) = false := by
          apply beq_false_of_ne
          intro heq
          exact h heq.symm
        have hk1notk2 : (k1 == k2) = false := by
          apply beq_false_of_ne
          intro heq
          exact h ((eq_of_beq hk) ▸ heq).symm
        rw [if_neg (by simp [hknotk2]), if_neg (by simp [hk1notk2])]
        exact ih
      · rw [if_neg hk]
        rw [dictGet_cons, dictGet_cons]
        by_cases hk2 : (k1 == k2) = true
        · rw [if_pos hk2, if_pos hk2]
        · rw [if_neg hk2, if_neg hk2]
          exact ih
  · induction d with
    | nil =>
      rw [List.nil_append, dictGet_cons]
      rw [if_neg (fun heq => h (eq_of_beq heq).symm)]
    | cons kv rest ih =>
      obtain ⟨k1, v1⟩ := kv
      rename_i hany
      have hrest : ¬(rest.any (fun kv => kv.1 == k) = true) := by
        intro hx
        exact hany (by rw [List.any_cons, hx]; simp)
      rw [List.cons_append, dictGet_cons, dictGet_cons]
      by_cases hk2 : (k1 == k2) = true
      · rw [if_pos hk2, if_pos hk2]
      · rw [if_neg hk2, if_neg hk2]
        exact ih hrest

/-- Invariant: the path slot of a bucket holds either its creation path or
a child dict that overwrote it (a subdirectory literally named
`__path__`). -/
def pathSlotOK (p : String) (d : Dict) : Prop :=
  dictGet d "__path__" = some (.vstr p) ∨ ∃ sub, dictGet d "__path__" = some (.vdict sub)

/-- Invariant: every nested `(name, bucket)` entry of the tree whose path
slot still holds a string was created for a non-ignored directory entry
with exactly that path and name. -/
def ignoreInv (cfg : ScanCfg) (d : Dict) : Prop :=
  ∀ nb ∈ nestedEntries d, ∀ q, dictGet nb.2 "__path__" = some (.vstr q) →
    ignoreDir cfg.ignoreDirs cfg.scanHiddenDirs q nb.1 = false

theorem pathSlotOK_dictSet_ne {p : String} {d : Dict} (k : String) (v : PyVal)
    (hk : ¬(("__path__" : String) = k)) (h : pathSlotOK p d) :
    pathSlotOK p (dictSet d k v) := by
  rcases h with h1 | ⟨sub, h1⟩
  · exact Or.inl (by rw [dictGet_dictSet_ne d k _ v hk, h1])
  · exact Or.inr ⟨sub, by rw [dictGet_dictSet_ne d k _ v hk, h1]⟩

theorem pathSlotOK_dictSet_vdict {p : String} {d : Dict} (k : String) (sub : Dict)
    (h : pathSlotOK p d) : pathSlotOK p (dictSet d k (.vdict sub)) := by
  by_cases hk : ("__path__" : String) = k
  · subst hk
    exact Or.inr ⟨sub, dictGet_dictSet_self d _ _⟩
  · exact pathSlotOK_dictSet_ne k _ hk h

theorem ignoreInv_dictSet_nondict {cfg : ScanCfg} {d : Dict} (k : String) (v : PyVal)
    (hv : ∀ sub, v ≠ .vdict sub) (h : ignoreInv cfg d) :
    ignoreInv cfg (dictSet d k v) := by
  intro nb hnb q hq
  rcases nestedEntries_dictSet hnb with h1 | ⟨sub, heq, -⟩
  · exact h nb h1 q hq
  · exact absurd heq (hv sub)

theorem ignoreInv_dictSet_vdict {cfg : ScanCfg} {d : Dict} {k : String} {sub : Dict}
    (h : ignoreInv cfg d) (hsub : ignoreInv cfg sub)
    (hkey : ∀ q, dictGet sub "__path__" = some (.vstr q) →
      ignoreDir cfg.ignoreDirs cfg.scanHiddenDirs q k = false) :
    ignoreInv cfg (dictSet d k (.vdict sub)) := by
  intro nb hnb q hq
  rcases nestedEntries_dictSet hnb with h1 | ⟨sub1, heq, h2⟩
  · exact h nb h1 q hq
  · have hsub1 : sub1 = sub := by
      injection heq.symm
    subst hsub1
    rcases h2 with rfl | h3
    · exact hkey q hq
    · exact hsub nb h3 q hq

theorem appendFile_ok {d : Dict} {name : String} {d1 : Dict}
    (h : appendFile d name = .ok d1) :
    ∃ l, d1 = dictSet d "__files__" (.vlist l) := by
  rw [appendFile] at h
  split at h
  · rename_i l heq
    exact ⟨l ++ [name], (Except.ok.inj h).symm⟩
  · exact absurd h (by simp)

theorem addFault_pathSlot {p : String} {d : Dict} (fault : Option String)
    (h : pathSlotOK p d) : pathSlotOK p (addFault fault d) := by
  cases fault with
  | none => exact h
  | some msg =>
    exact pathSlotOK_dictSet_ne _ _ (by intro hx; exact absurd hx (by decide)) h

theorem addFault_inv {cfg : ScanCfg} {d : Dict} (fault : Option String)
    (h : ignoreInv cfg d) : ignoreInv cfg (addFault fault d) := by
  cases fault with
  | none => exact h
  | some msg =>
    exact ignoreInv_dictSet_nondict _ _ (by intro sub; simp) h

theorem ignoreInv_initD (cfg : ScanCfg) (p : String) : ignoreInv cfg (initD p) := by
  intro nb hnb
  rw [initD, nestedEntries_cons_vstr, nestedEntries_cons_vlist, nestedEntries_nil] at hnb
  simp at hnb

theorem pathSlotOK_initD (p : String) : pathSlotOK p (initD p) := Or.inl rfl

theorem crawlEntries_nil (cfg : ScanCfg) (path : String) (d : Dict) :
    crawlEntries cfg path [] d = .ok d := by
  rw [crawlEntries]

theorem crawlEntries_file (cfg : ScanCfg) (path name : String) (rest : List FSEntry)
    (d : Dict) :
    crawlEntries cfg path (.file name :: rest) d =
      if shouldConsiderFile cfg name then
        match appendFile d name with
        | .ok d1 => crawlEntries cfg path rest d1
        | .error e => .error e
      else crawlEntries cfg path rest d := by
  rw [crawlEntries]

theorem crawlEntries_dir (cfg : ScanCfg) (path name : String) (sub : List FSEntry)
    (sfault : Option String) (rest : List FSEntry) (d : Dict) :
    crawlEntries cfg path (.dir name sub sfault :: rest) d =
      if ignoreDir cfg.ignoreDirs cfg.scanHiddenDirs (path ++ "/" ++ name) name then
        crawlEntries cfg path rest d
      else
        match (crawlEntries cfg (path ++ "/" ++ name) sub
            (initD (path ++ "/" ++ name))).map (addFault sfault) with
        | .ok c => crawlEntries cfg path rest (dictSet d name (.vdict c))
        | .error e => .error e := by
  rw [crawlEntries]

theorem crawlEntries_other (cfg : ScanCfg) (path name : String) (rest : List FSEntry)
    (d : Dict) :
    crawlEntries cfg path (.other name :: rest) d = crawlEntries cfg path rest d := by
  rw [crawlEntries]

/-- The crawl preserves the path-slot and ignore invariants. -/
theorem crawlEntries_inv : ∀ es : List FSEntry, ∀ cfg : ScanCfg, ∀ path : String,
    ∀ d d1 : Dict, crawlEntries cfg path es d = .ok d1 →
    (∀ p, pathSlotOK p d → pathSlotOK p d1) ∧
    (ignoreInv cfg d → ignoreInv cfg d1) := by
  apply sizeOf_strongInd (P := fun es => ∀ cfg : ScanCfg, ∀ path : String,
    ∀ d d1 : Dict, crawlEntries cfg path es d = .ok d1 →
    (∀ p, pathSlotOK p d → pathSlotOK p d1) ∧
    (ignoreInv cfg d → ignoreInv cfg d1))
  intro es ih cfg path d d1 hrun
  cases es with
  | nil =>
    rw [crawlEntries_nil] at hrun
    have hd : d = d1 := Except.ok.inj hrun
    subst hd
    exact ⟨fun p h => h, fun h => h⟩
  | cons e rest =>
    have hsrest : sizeOf rest < sizeOf (e :: rest) := by
      simp <;> omega
    cases e with
    | file name =>
      rw [crawlEntries_file] at hrun
      split at hrun
      · split at hrun
        · rename_i dx heq
          obtain ⟨l, rfl⟩ := appendFile_ok heq
          have hrest := ih rest hsrest cfg path _ d1 hrun
          refine ⟨fun p hp => hrest.1 p ?_, fun hinv => hrest.2 ?_⟩
          · exact pathSlotOK_dictSet_ne _ _ (by decide) hp
          · exact ignoreInv_dictSet_nondict _ _ (by intro sub; simp) hinv
        · exact absurd hrun (by simp)
      · exact ih rest hsrest cfg path d d1 hrun
    | other name =>
      rw [crawlEntries_other] at hrun
      exact ih rest hsrest cfg path d d1 hrun
    | dir name sub sfault =>
      have hssub : sizeOf sub < sizeOf (FSEntry.dir name sub sfault :: rest) := by
        simp <;> omega
      rw [crawlEntries_dir] at hrun
      split at hrun
      · exact ih rest hsrest cfg path d d1 hrun
      · rename_i hig
        split at hrun
        · rename_i c heq
          obtain ⟨c0, hm, rfl⟩ : ∃ c0,
              crawlEntries cfg (path ++ "/" ++ name) sub (initD (path ++ "/" ++ name)) =
                .ok c0 ∧ c = addFault sfault c0 := by
            cases hm : crawlEntries cfg (path ++ "/" ++ name) sub
                (initD (path ++ "/" ++ name)) with
            | error e =>
              rw [hm] at heq
              exact absurd heq (by simp [Except.map])
            | ok c0 =>
              rw [hm] at heq
              refine ⟨c0, rfl, ?_⟩
              have := Except.ok.inj heq
              exact this.symm
          have hsub := ih sub hssub cfg (path ++ "/" ++ name) (initD (path ++ "/" ++ name)) c0 hm
          have hpsc : pathSlotOK (path ++ "/" ++ name) (addFault sfault c0) :=
            addFault_pathSlot _ (hsub.1 _ (pathSlotOK_initD _))
          have hinvc : ignoreInv cfg (addFault sfault c0) :=
            addFault_inv _ (hsub.2 (ignoreInv_initD _ _))
          have hkeyc : ∀ q, dictGet (addFault sfault c0) "__path__" = some (.vstr q) →
              ignoreDir cfg.ignoreDirs cfg.scanHiddenDirs q name = false := by
            intro q hq
            rcases hpsc with h1 | ⟨s2, h2⟩
            · rw [h1] at hq
              have hq2 : PyVal.vstr (path ++ "/" ++ name) = PyVal.vstr q := Option.some.inj hq
              have hq3 : path ++ "/" ++ name = q := by injection hq2
              rw [← hq3]
              exact eq_false_of_ne_true hig
            · rw [h2] at hq
              have := Option.some.inj hq
              exact absurd this (by simp)
          have hrest := ih rest hsrest cfg path _ d1 hrun
          refine ⟨fun p hp => hrest.1 p ?_, fun hinv => hrest.2 ?_⟩
          · exact pathSlotOK_dictSet_vdict _ _ hp
          · exact ignoreInv_dictSet_vdict hinv hinvc hkeyc
        · exact absurd hrun (by simp)

theorem skimEntries_inv : ∀ es : List FSEntry, ∀ cfg : ScanCfg, ∀ path : String,
    ∀ d d1 : Dict, skimEntries cfg path es d = .ok d1 →
    (∀ p, pathSlotOK p d → pathSlotOK p d1) ∧
    (ignoreInv cfg d → ignoreInv cfg d1) := by
  intro es
  induction es with
  | nil =>
    intro cfg path d d1 hrun
    rw [skimEntries] at hrun
    have hd : d = d1 := Except.ok.inj hrun
    subst hd
    exact ⟨fun p h => h, fun h => h⟩
  | cons e rest ih =>
    intro cfg path d d1 hrun
    cases e with
    | file name =>
      rw [skimEntries] at hrun
      split at hrun
      · split at hrun
        · rename_i dx heq
          obtain ⟨l, rfl⟩ := appendFile_ok heq
          have hrest := ih cfg path _ d1 hrun
          refine ⟨fun p hp => hrest.1 p ?_, fun hinv => hrest.2 ?_⟩
          · exact pathSlotOK_dictSet_ne _ _ (by decide) hp
          · exact ignoreInv_dictSet_nondict _ _ (by intro sub; simp) hinv
        · exact absurd hrun (by simp)
      · exact ih cfg path d d1 hrun
    | other name =>
      rw [skimEntries] at hrun
      exact ih cfg path d d1 hrun
    | dir name sub sfault =>
      rw [skimEntries] at hrun
      split at hrun
      · exact ih cfg path d d1 hrun
      · rename_i hig
        have hrest := ih cfg path _ d1 hrun
        have hkeyc : ∀ q, dictGet (initD (path ++ "/" ++ name)) "__path__" =
            some (.vstr q) →
            ignoreDir cfg.ignoreDirs cfg.scanHiddenDirs q name = false := by
          intro q hq
          have hq2 : PyVal.vstr (path ++ "/" ++ name) = PyVal.vstr q := Option.some.inj hq
          have hq3 : path ++ "/" ++ name = q := by injection hq2
          rw [← hq3]
          exact eq_false_of_ne_true hig
        refine ⟨fun p hp => hrest.1 p ?_, fun hinv => hrest.2 ?_⟩
        · exact pathSlotOK_dictSet_vdict _ _ hp
        · exact ignoreInv_dictSet_vdict hinv (ignoreInv_initD _ _) hkeyc

theorem crawlChildren_nil (cfg : ScanCfg) (path : String) (d : Dict) :
    crawlChildren cfg path [] d = .ok d := by
  rw [crawlChildren]

theorem crawlChildren_dir (cfg : ScanCfg) (path name : String) (sub : List FSEntry)
    (sfault : Option String) (rest : List FSEntry) (d : Dict) :
    crawlChildren cfg path (.dir name sub sfault :: rest) d =
      if ignoreDir cfg.ignoreDirs cfg.scanHiddenDirs (path ++ "/" ++ name) name then
        crawlChildren cfg path rest d
      else
        match crawlDir cfg (path ++ "/" ++ name) sub sfault with
        | .ok c => crawlChildren cfg path rest (dictSet d name (.vdict c))
        | .error e => .error e := by
  rw [crawlChildren]

theorem crawlChildren_file (cfg : ScanCfg) (path name : String) (rest : List FSEntry)
    (d : Dict) :
    crawlChildren cfg path (.file name :: rest) d = crawlChildren cfg path rest d := by
  rw [crawlChildren.eq_def]

theorem crawlChildren_other (cfg : ScanCfg) (path name : String) (rest : List FSEntry)
    (d : Dict) :
    crawlChildren cfg path (.other name :: rest) d = crawlChildren cfg path rest d := by
  rw [crawlChildren.eq_def]

theorem crawlChildren_inv : ∀ es : List FSEntry, ∀ cfg : ScanCfg, ∀ path : String,
    ∀ d d1 : Dict, crawlChildren cfg path es d = .ok d1 →
    (∀ p, pathSlotOK p d → pathSlotOK p d1) ∧
    (ignoreInv cfg d → ignoreInv cfg d1) := by
  intro es
  induction es with
  | nil =>
    intro cfg path d d1 hrun
    rw [crawlChildren_nil] at hrun
    have hd : d = d1 := Except.ok.inj hrun
    subst hd
    exact ⟨fun p h => h, fun h => h⟩
  | cons e rest ih =>
    intro cfg path d d1 hrun
    cases e with
    | file name =>
      rw [crawlChildren_file] at hrun
      exact ih cfg path d d1 hrun
    | other name =>
      rw [crawlChildren_other] at hrun
      exact ih cfg path d d1 hrun
    | dir name sub sfault =>
      rw [crawlChildren_dir] at hrun
      split at hrun
      · exact ih cfg path d d1 hrun
      · rename_i hig
        split at hrun
        · rename_i c heq
          obtain ⟨c0, hm, rfl⟩ : ∃ c0,
              crawlEntries cfg (path ++ "/" ++ name) sub (initD (path ++ "/" ++ name)) =
                .ok c0 ∧ c = addFault sfault c0 := by
            rw [crawlDir] at heq
            cases hm : crawlEntries cfg (path ++ "/" ++ name) sub
                (initD (path ++ "/" ++ name)) with
            | error e =>
              rw [hm] at heq
              exact absurd heq (by simp [Except.map])
            | ok c0 =>
              rw [hm] at heq
              refine ⟨c0, rfl, ?_⟩
              have := Except.ok.inj heq
              exact this.symm
          have hsub := crawlEntries_inv sub cfg (path ++ "/" ++ name)
            (initD (path ++ "/" ++ name)) c0 hm
          have hpsc : pathSlotOK (path ++ "/" ++ name) (addFault sfault c0) :=
            addFault_pathSlot _ (hsub.1 _ (pathSlotOK_initD _))
          have hinvc : ignoreInv cfg (addFault sfault c0) :=
            addFault_inv _ (hsub.2 (ignoreInv_initD _ _))
          have hkeyc : ∀ q, dictGet (addFault sfault c0) "__path__" = some (.vstr q) →
              ignoreDir cfg.ignoreDirs cfg.scanHiddenDirs q name = false := by
            intro q hq
            rcases hpsc with h1 | ⟨s2, h2⟩
            · rw [h1] at hq
              have hq2 : PyVal.vstr (path ++ "/" ++ name) = PyVal.vstr q := Option.some.inj hq
              have hq3 : path ++ "/" ++ name = q := by injection hq2
              rw [← hq3]
              exact eq_false_of_ne_true hig
            · rw [h2] at hq
              have := Option.some.inj hq
              exact absurd this (by simp)
          have hrest := ih cfg path _ d1 hrun
          refine ⟨fun p hp => hrest.1 p ?_, fun hinv => hrest.2 ?_⟩
          · exact pathSlotOK_dictSet_vdict _ _ hp
          · exact ignoreInv_dictSet_vdict hinv hinvc hkeyc
        · exact absurd hrun (by simp)

/-- Every key that `_compile_result` emits is the path-slot string of the
bucket it was read from — the bucket itself or one nested inside it. -/
theorem compile_keys : ∀ d : Dict,
    (∀ acc : Dict, ∀ x, x ∈ compileResult d acc → x ∈ acc ∨
      (∃ q, dictGet d "__path__" = some (.vstr q) ∧ x.1 = q) ∨
      (∃ nb ∈ nestedEntries d, dictGet nb.2 "__path__" = some (.vstr x.1))) ∧
    (∀ acc : Dict, ∀ x, x ∈ compileKids d acc → x ∈ acc ∨
      (∃ nb ∈ nestedEntries d, dictGet nb.2 "__path__" = some (.vstr x.1))) := by
  apply sizeOf_strongInd
  intro d ih
  have hpart2 : ∀ acc : Dict, ∀ x, x ∈ compileKids d acc → x ∈ acc ∨
      (∃ nb ∈ nestedEntries d, dictGet nb.2 "__path__" = some (.vstr x.1)) := by
    intro acc x hx
    cases d with
    | nil =>
      rw [compileKids_nil] at hx
      exact Or.inl hx
    | cons kv rest =>
      have hsrest : sizeOf rest < sizeOf (kv :: rest) := by
        simp <;> omega
      obtain ⟨k, v⟩ := kv
      cases v with
      | vstr s =>
        rw [compileKids_cons_vstr] at hx
        rw [nestedEntries_cons_vstr]
        rcases (ih rest hsrest).2 acc x hx with h1 | h1
        · exact Or.inl h1
        · exact Or.inr h1
      | vlist l =>
        rw [compileKids_cons_vlist] at hx
        rw [nestedEntries_cons_vlist]
        rcases (ih rest hsrest).2 acc x hx with h1 | h1
        · exact Or.inl h1
        · exact Or.inr h1
      | vdict sub =>
        have hssub : sizeOf sub < sizeOf ((k, PyVal.vdict sub) :: rest) := by
          simp <;> omega
        rw [compileKids_cons_vdict] at hx
        rw [nestedEntries_cons_vdict]
        rcases (ih rest hsrest).2 _ x hx with h1 | ⟨nb, hnb, hpath⟩
        · rcases (ih sub hssub).1 acc x h1 with h2 | h2 | ⟨nb, hnb, hpath⟩
          · exact Or.inl h2
          · obtain ⟨q, hget, hq⟩ := h2
            refine Or.inr ⟨(k, sub), List.mem_cons_self _ _, ?_⟩
            rw [hq]
            exact hget
          · exact Or.inr ⟨nb, List.mem_cons_of_mem _ (List.mem_append_left _ hnb), hpath⟩
        · exact Or.inr ⟨nb, List.mem_cons_of_mem _ (List.mem_append_right _ hnb), hpath⟩
  refine ⟨?_, hpart2⟩
  intro acc x hx
  rw [compileResult] at hx
  split at hx
  · exact Or.inl hx
  · split at hx
    · rename_i fv hf
      split at hx
      · split at hx
        · rename_i p hp
          rcases hpart2 _ x hx with h1 | h1
          · rcases mem_dictSet h1 with h2 | h2
            · exact Or.inl h2
            · refine Or.inr (Or.inl ⟨p, hp, ?_⟩)
              rw [h2]
          · exact Or.inr (Or.inr h1)
        · rcases hpart2 acc x hx with h1 | h1
          · exact Or.inl h1
          · exact Or.inr (Or.inr h1)
      · rcases hpart2 acc x hx with h1 | h1
        · exact Or.inl h1
        · exact Or.inr (Or.inr h1)
    · rcases hpart2 acc x hx with h1 | h1
      · exact Or.inl h1
      · exact Or.inr (Or.inr h1)

/-- **Claim C7.**  Whatever tree `begin_scan` returns: (a) every nested
`(key, bucket)` entry whose path slot holds a string was created for a
directory entry that passed the ignore/hidden filter — a directory entry
whose name or path is in the ignore set, or whose name is hidden while
hidden directories are excluded, never appears as a key anywhere in the
tree; and (b) every key of `search_scan`'s flatten is the path of the root
bucket or of one of those nested (hence non-ignored) buckets, so an
ignored directory's contents are absent from Flatten as well.
`_summarize` likewise reads only the returned tree, in which the ignored
directory has no key. -/
theorem claim_C7_ignored_dirs_absent (cfg : ScanCfg) (path : String)
    (es : List FSEntry) (fault : Option String) (d : Dict) (w : Nat)
    (hrun : beginScan cfg path es fault = (.ok d, w)) :
    (∀ nb ∈ nestedEntries d, ∀ q, dictGet nb.2 "__path__" = some (.vstr q) →
      ignoreDir cfg.ignoreDirs cfg.scanHiddenDirs q nb.1 = false) ∧
    (∀ x ∈ pyFlatten d,
      (∃ q, dictGet d "__path__" = some (.vstr q) ∧ x.1 = q) ∨
      ∃ nb ∈ nestedEntries d, dictGet nb.2 "__path__" = some (.vstr x.1)) := by
  have hinv : ignoreInv cfg d := by
    rw [beginScan] at hrun
    split at hrun
    · exact absurd (Prod.mk.inj hrun).1 (by simp)
    · rename_i d0 hsk
      obtain ⟨dS, hse, hd0⟩ : ∃ dS, skimEntries cfg path es (initD path) = .ok dS ∧
          d0 = addFault fault dS := by
        rw [skimDir] at hsk
        cases hse : skimEntries cfg path es (initD path) with
        | error e =>
          rw [hse] at hsk
          exact absurd hsk (by simp [Except.map])
        | ok dS =>
          rw [hse] at hsk
          exact ⟨dS, rfl, (Except.ok.inj hsk).symm⟩
      have hinv0 : ignoreInv cfg d0 := by
        rw [hd0]
        exact addFault_inv _ ((skimEntries_inv es cfg path _ _ hse).2 (ignoreInv_initD _ _))
      split at hrun
      · have hd : d0 = d := Except.ok.inj (Prod.mk.inj hrun).1
        exact hd ▸ hinv0
      · split at hrun
        · rename_i d1 hcc
          simp only [] at hrun
          split at hrun
          · exact absurd (Prod.mk.inj hrun).1 (by simp)
          · have hd : d1 = d := Except.ok.inj (Prod.mk.inj hrun).1
            exact hd ▸ (crawlChildren_inv es cfg path d0 d1 hcc).2 hinv0
        · simp only [] at hrun
          split at hrun
          · exact absurd (Prod.mk.inj hrun).1 (by simp)
          · exact absurd (Prod.mk.inj hrun).1 (by simp)
  refine ⟨hinv, ?_⟩
  intro x hx
  rcases (compile_keys d).1 [] x hx with h1 | h1 | h1
  · simp at h1
  · exact Or.inl h1
  · exact Or.inr h1

/-- Witness for `claim_C7_ignored_dirs_absent`: a scan with `"skip"` in
the ignore set over a root holding directories `skip` and `keep` returns a
tree whose only key is `keep`. -/
theorem claim_C7_witness :
    beginScan ⟨["skip"], true, true, none, none⟩ "/r"
        [.dir "skip" [] none, .dir "keep" [] none] none =
      (.ok [("__path__", .vstr "/r"), ("__files__", .vlist []),
            ("keep", .vdict [("__path__", .vstr "/r/keep"), ("__files__", .vlist [])])], 1) ∧
    ((∀ nb ∈ nestedEntries [("__path__", .vstr "/r"), ("__files__", .vlist []),
            ("keep", .vdict [("__path__", .vstr "/r/keep"), ("__files__", .vlist [])])],
        ∀ q, dictGet nb.2 "__path__" = some (.vstr q) →
          ignoreDir ["skip"] true q nb.1 = false) ∧
      (∀ x ∈ pyFlatten [("__path__", .vstr "/r"), ("__files__", .vlist []),
            ("keep", .vdict [("__path__", .vstr "/r/keep"), ("__files__", .vlist [])])],
        (∃ q, dictGet [("__path__", .vstr "/r"), ("__files__", .vlist []),
            ("keep", .vdict [("__path__", .vstr "/r/keep"), ("__files__", .vlist [])])]
            "__path__" = some (.vstr q) ∧ x.1 = q) ∨
        ∃ nb ∈ nestedEntries [("__path__", .vstr "/r"), ("__files__", .vlist []),
            ("keep", .vdict [("__path__", .vstr "/r/keep"), ("__files__", .vlist [])])],
          dictGet nb.2 "__path__" = some (.vstr x.1))) := by
  have hrun : beginScan ⟨["skip"], true, true, none, none⟩ "/r"
      [.dir "skip" [] none, .dir "keep" [] none] none =
      (.ok [("__path__", .vstr "/r"), ("__files__", .vlist []),
            ("keep", .vdict [("__path__", .vstr "/r/keep"), ("__files__", .vlist [])])], 1) := by
    simp only [beginScan, skimDir, skimEntries, crawlChildren, crawlDir, crawlEntries,
      appendFile, dictGet, dictSet, dictHasKey, addFault, initD, shouldConsiderFile,
      ignoreDir, pyStartsWith, MAX_WORKERS, Except.map]
    rfl
  exact ⟨hrun, claim_C7_ignored_dirs_absent _ _ _ _ _ _ hrun⟩

/-! ### Claim C2: the error key

The dict overlays the reserved keys and the child-directory names in one
key space.  A subdirectory literally named `__error__` therefore makes a
successfully-listed directory carry the error key: this is the collision
the counterexample below exhibits (at the root it even makes `begin_scan`
return early, treating a healthy root as errored).  The amended claim
establishes, for filesystems with no reserved-named directories (and, as
the filesystem model allows duplicate sibling names which `os.scandir`
cannot produce, distinct sibling names), a full refinement: `begin_scan`
returns exactly the dict image of the abstract tree in which each node's
`error` field is the listing fault of its directory — so the error key of
every bucket of the result is present iff that directory's listing
faulted. -/

/-- **Claim C2, counterexample.**  The root `/r` lists successfully
(no fault) and contains a single subdirectory named `__error__`; the
returned tree's root bucket carries the `__error__` key (holding the
child's bucket), `begin_scan` returns it early as if the root had failed,
and `_summarize` reports an error for it. -/
theorem claim_C2_counterexample :
    beginScan ⟨[], true, true, none, none⟩ "/r" [.dir "__error__" [] none] none =
      (.ok [("__path__", .vstr "/r"), ("__files__", .vlist []),
            ("__error__", .vdict [("__path__", .vstr "/r/__error__"),
                                  ("__files__", .vlist [])])], 0) ∧
    dictHasKey [("__path__", .vstr "/r"), ("__files__", .vlist []),
        ("__error__", .vdict [("__path__", .vstr "/r/__error__"),
                              ("__files__", .vlist [])])] "__error__" = true ∧
    pySummarize [("__path__", .vstr "/r"), ("__files__", .vlist []),
        ("__error__", .vdict [("__path__", .vstr "/r/__error__"),
                              ("__files__", .vlist [])])] = (1, 0, 0) := by
  refine ⟨rfl, rfl, ?_⟩
  rw [pySummarize]
  simp [dictHasKey]

/-- The names of the directory entries of one listing. -/
def dirNames : List FSEntry → List String
  | [] => []
  | .dir n _ _ :: rest => n :: dirNames rest
  | _ :: rest => dirNames rest

/-- Filesystem well-formedness for the refinement: within each directory
no subdirectory is named like a reserved key and sibling subdirectory
names are distinct, recursively. -/
def WFfs : List FSEntry → Bool
  | [] => true
  | .dir n sub _ :: rest =>
    !reservedName n && !((dirNames rest).contains n) && WFfs sub && WFfs rest
  | _ :: rest => WFfs rest
termination_by es => sizeOf es

/-- The files one listing contributes, in listing order
(the `entry.is_file` branch of the crawl). -/
def absFiles (cfg : ScanCfg) : List FSEntry → List String
  | [] => []
  | .file n :: rest =>
    if shouldConsiderFile cfg n then n :: absFiles cfg rest else absFiles cfg rest
  | _ :: rest => absFiles cfg rest

/-- The fully-crawled children of one directory, as abstract nodes: one
per non-ignored subdirectory, in listing order, recursively crawled. -/
def absChildren (cfg : ScanCfg) (path : String) : List FSEntry → List (String × Node)
  | [] => []
  | .dir n sub sf :: rest =>
    if ignoreDir cfg.ignoreDirs cfg.scanHiddenDirs (path ++ "/" ++ n) n then
      absChildren cfg path rest
    else
      (n, Node.mk (path ++ "/" ++ n) (absFiles cfg sub) sf
        (absChildren cfg (path ++ "/" ++ n) sub)) :: absChildren cfg path rest
  | _ :: rest => absChildren cfg path rest
termination_by es => sizeOf es

/-- The abstract result of crawling one directory: its path, its filtered
files, its listing fault as the `error` field, and its crawled children. -/
def scanDirAbs (cfg : ScanCfg) (path : String) (es : List FSEntry)
    (fault : Option String) : Node :=
  .mk path (absFiles cfg es) fault (absChildren cfg path es)

/-- The un-crawled child stubs `skim_dir` leaves behind when the root's
own listing faults: empty files, no error, no children. -/
def stubChildren (cfg : ScanCfg) (path : String) : List FSEntry → List (String × Node)
  | [] => []
  | .dir n _ _ :: rest =>
    if ignoreDir cfg.ignoreDirs cfg.scanHiddenDirs (path ++ "/" ++ n) n then
      stubChildren cfg path rest
    else
      (n, Node.mk (path ++ "/" ++ n) [] none []) :: stubChildren cfg path rest
  | _ :: rest => stubChildren cfg path rest

/-- The abstract contract of `begin_scan`: a faulted root returns the
stub tree with 0 workers; a healthy root with no children after filtering
returns nothing (the executor raises); otherwise the fully-crawled tree
with `min(fan-out, 32)` workers. -/
def beginScanAbs (cfg : ScanCfg) (path : String) (es : List FSEntry)
    (fault : Option String) : Option (Node × Nat) :=
  match fault with
  | some f => some (.mk path (absFiles cfg es) (some f) (stubChildren cfg path es), 0)
  | none =>
    if min (stubChildren cfg path es).length MAX_WORKERS = 0 then none
    else some (scanDirAbs cfg path es none, min (stubChildren cfg path es).length MAX_WORKERS)

/-- A bucket and all buckets nested inside it. -/
def allBuckets (d : Dict) : List Dict := d :: (nestedEntries d).map Prod.snd

theorem childrenToDict_eq_map (cs : List (String × Node)) :
    childrenToDict cs = cs.map (fun nc => (nc.1, PyVal.vdict (Node.toDict nc.2))) := by
  induction cs with
  | nil => rw [childrenToDict_nil, List.map_nil]
  | cons nc rest ih =>
    obtain ⟨n, c⟩ := nc
    rw [childrenToDict_cons, List.map_cons, ih]

/-- The shape of every bucket the crawl builds: path, files, then the
child entries (and possibly a trailing error entry) in `cs0`. -/
def structD (p0 : String) (fs0 : List String) (cs0 : Dict) : Dict :=
  ("__path__", .vstr p0) :: ("__files__", .vlist fs0) :: cs0

theorem reserved_keys_ne {n : String} (h : reservedName n = false) :
    (("__path__" : String) == n) = false ∧ (("__files__" : String) == n) = false ∧
    (("__error__" : String) == n) = false := by
  rw [reservedName] at h
  simp only [Bool.or_eq_false_iff, beq_eq_false_iff_ne] at h
  obtain ⟨⟨h1, h2⟩, h3⟩ := h
  refine ⟨?_, ?_, ?_⟩ <;> apply beq_false_of_ne
  · exact fun heq => h1 heq.symm
  · exact fun heq => h2 heq.symm
  · exact fun heq => h3 heq.symm

theorem structD_get_files (p0 : String) (fs0 : List String) (cs0 : Dict) :
    dictGet (structD p0 fs0 cs0) "__files__" = some (.vlist fs0) := by
  rw [structD, dictGet_cons, if_neg (by decide), dictGet_cons, if_pos (by decide)]

theorem key_not_mem_any {cs0 : Dict} {n : String} (h : ¬ n ∈ cs0.map Prod.fst) :
    cs0.any (fun kv => kv.1 == n) = false := by
  rw [List.any_eq_false]
  intro kv hkv
  intro heq
  exact h (List.mem_map.mpr ⟨kv, hkv, eq_of_beq heq⟩)

theorem map_keep_of_not_mem {cs0 : Dict} {n : String} (v : PyVal)
    (h : ¬ n ∈ cs0.map Prod.fst) :
    cs0.map (fun kv => if kv.1 == n then (n, v) else kv) = cs0 := by
  induction cs0 with
  | nil => rfl
  | cons kv rest ih =>
    rw [List.map_cons]
    rw [List.map_cons] at h
    have hkv : (kv.1 == n) = false := by
      apply beq_false_of_ne
      intro heq
      exact h (List.mem_cons.mpr (Or.inl heq.symm))
    rw [if_neg (by simp [hkv])]
    rw [ih (fun hm => h (List.mem_cons_of_mem _ hm))]

theorem structD_set_files (p0 : String) (fs0 : List String) (cs0 : Dict)
    (l : List String) (hcs0 : ∀ k ∈ cs0.map Prod.fst, reservedName k = false) :
    dictSet (structD p0 fs0 cs0) "__files__" (.vlist l) = structD p0 l cs0 := by
  have hfresh : ¬ ("__files__" : String) ∈ cs0.map Prod.fst := by
    intro hm
    have := hcs0 _ hm
    rw [reservedName] at this
    simp at this
  rw [structD, dictSet]
  rw [if_pos (by simp)]
  simp only [List.map_cons]
  rw [map_keep_of_not_mem _ hfresh]
  simp [structD]

theorem structD_set_fresh (p0 : String) (fs0 : List String) (cs0 : Dict)
    (n : String) (v : PyVal)
    (h1 : (("__path__" : String) == n) = false)
    (h2 : (("__files__" : String) == n) = false)
    (hfresh : ¬ n ∈ cs0.map Prod.fst) :
    dictSet (structD p0 fs0 cs0) n v = structD p0 fs0 (cs0 ++ [(n, v)]) := by
  rw [structD, dictSet]
  rw [if_neg (by simp [h1, h2, key_not_mem_any hfresh])]
  rfl

theorem structD_set_present_mid (p0 : String) (fs0 : List String) (cs0 tail : Dict)
    (n : String) (x v : PyVal)
    (h1 : (("__path__" : String) == n) = false)
    (h2 : (("__files__" : String) == n) = false)
    (hfresh0 : ¬ n ∈ cs0.map Prod.fst) (hfresht : ¬ n ∈ tail.map Prod.fst) :
    dictSet (structD p0 fs0 (cs0 ++ (n, x) :: tail)) n v =
      structD p0 fs0 (cs0 ++ (n, v) :: tail) := by
  rw [structD, dictSet]
  rw [if_pos (by simp)]
  simp only [List.map_cons, List.map_append]
  rw [map_keep_of_not_mem _ hfresh0, map_keep_of_not_mem _ hfresht]
  simp [structD, h1, h2]

theorem structD_hasKey_error_false (p0 : String) (fs0 : List String) (cs0 : Dict)
    (hcs0 : ∀ k ∈ cs0.map Prod.fst, reservedName k = false) :
    dictHasKey (structD p0 fs0 cs0) "__error__" = false := by
  have hfresh : ¬ ("__error__" : String) ∈ cs0.map Prod.fst := by
    intro hm
    have := hcs0 _ hm
    rw [reservedName] at this
    simp at this
  rw [structD, dictHasKey]
  simp [key_not_mem_any hfresh]

theorem structD_hasKey_error_true (p0 : String) (fs0 : List String) (cs0 : Dict)
    (e : String) :
    dictHasKey (structD p0 fs0 (cs0 ++ [("__error__", .vstr e)])) "__error__" = true := by
  rw [structD, dictHasKey]
  simp

theorem structD_countP_isDict (p0 : String) (fs0 : List String) (cs0 : Dict)
    (hall : ∀ kv ∈ cs0, kv.2.isDict = true) :
    (structD p0 fs0 cs0).countP (fun kv => kv.2.isDict) = cs0.length := by
  rw [structD]
  rw [List.countP_cons_of_neg _ _ (by simp [PyVal.isDict])]
  rw [List.countP_cons_of_neg _ _ (by simp [PyVal.isDict])]
  rw [List.countP_eq_length.mpr hall]

theorem childrenToDict_keys (cs : List (String × Node)) :
    (childrenToDict cs).map Prod.fst = cs.map Prod.fst := by
  rw [childrenToDict_eq_map, List.map_map]
  rfl

theorem WFfs_nil : WFfs [] = true := by rw [WFfs]

theorem WFfs_dir (n : String) (sub : List FSEntry) (sf : Option String)
    (rest : List FSEntry) :
    WFfs (.dir n sub sf :: rest) =
      (!reservedName n && !((dirNames rest).contains n) && WFfs sub && WFfs rest) := by
  rw [WFfs]

theorem WFfs_file (n : String) (rest : List FSEntry) :
    WFfs (.file n :: rest) = WFfs rest := by
  rw [WFfs.eq_def]

theorem WFfs_other (n : String) (rest : List FSEntry) :
    WFfs (.other n :: rest) = WFfs rest := by
  rw [WFfs.eq_def]

theorem dirNames_nil : dirNames [] = [] := by rw [dirNames]

theorem dirNames_dir (n : String) (sub : List FSEntry) (sf : Option String)
    (rest : List FSEntry) :
    dirNames (.dir n sub sf :: rest) = n :: dirNames rest := by
  rw [dirNames]

theorem dirNames_file (n : String) (rest : List FSEntry) :
    dirNames (.file n :: rest) = dirNames rest := by
  rw [dirNames.eq_def]

theorem dirNames_other (n : String) (rest : List FSEntry) :
    dirNames (.other n :: rest) = dirNames rest := by
  rw [dirNames.eq_def]

theorem absFiles_nil (cfg : ScanCfg) : absFiles cfg [] = [] := by rw [absFiles]

theorem absFiles_file (cfg : ScanCfg) (n : String) (rest : List FSEntry) :
    absFiles cfg (.file n :: rest) =
      if shouldConsiderFile cfg n then n :: absFiles cfg rest else absFiles cfg rest := by
  rw [absFiles]

theorem absFiles_dir (cfg : ScanCfg) (n : String) (sub : List FSEntry)
    (sf : Option String) (rest : List FSEntry) :
    absFiles cfg (.dir n sub sf :: rest) = absFiles cfg rest := by
  rw [absFiles.eq_def]

theorem absFiles_other (cfg : ScanCfg) (n : String) (rest : List FSEntry) :
    absFiles cfg (.other n :: rest) = absFiles cfg rest := by
  rw [absFiles.eq_def]

theorem absChildren_nil (cfg : ScanCfg) (path : String) : absChildren cfg path [] = [] := by
  rw [absChildren]

theorem absChildren_dir (cfg : ScanCfg) (path n : String) (sub : List FSEntry)
    (sf : Option String) (rest : List FSEntry) :
    absChildren cfg path (.dir n sub sf :: rest) =
      if ignoreDir cfg.ignoreDirs cfg.scanHiddenDirs (path ++ "/" ++ n) n then
        absChildren cfg path rest
      else
        (n, Node.mk (path ++ "/" ++ n) (absFiles cfg sub) sf
          (absChildren cfg (path ++ "/" ++ n) sub)) :: absChildren cfg path rest := by
  rw [absChildren]

theorem absChildren_file (cfg : ScanCfg) (path n : String) (rest : List FSEntry) :
    absChildren cfg path (.file n :: rest) = absChildren cfg path rest := by
  rw [absChildren.eq_def]

theorem absChildren_other (cfg : ScanCfg) (path n : String) (rest : List FSEntry) :
    absChildren cfg path (.other n :: rest) = absChildren cfg path rest := by
  rw [absChildren.eq_def]

theorem stubChildren_nil (cfg : ScanCfg) (path : String) : stubChildren cfg path [] = [] := by
  rw [stubChildren]

theorem stubChildren_dir (cfg : ScanCfg) (path n : String) (sub : List FSEntry)
    (sf : Option String) (rest : List FSEntry) :
    stubChildren cfg path (.dir n sub sf :: rest) =
      if ignoreDir cfg.ignoreDirs cfg.scanHiddenDirs (path ++ "/" ++ n) n then
        stubChildren cfg path rest
      else
        (n, Node.mk (path ++ "/" ++ n) [] none []) :: stubChildren cfg path rest := by
  rw [stubChildren]

theorem stubChildren_file (cfg : ScanCfg) (path n : String) (rest : List FSEntry) :
    stubChildren cfg path (.file n :: rest) = stubChildren cfg path rest := by
  rw [stubChildren.eq_def]

theorem stubChildren_other (cfg : ScanCfg) (path n : String) (rest : List FSEntry) :
    stubChildren cfg path (.other n :: rest) = stubChildren cfg path rest := by
  rw [stubChildren.eq_def]

theorem WFfs_dirNames_reserved : ∀ es : List FSEntry, WFfs es = true →
    ∀ n ∈ dirNames es, reservedName n = false := by
  intro es
  induction es with
  | nil =>
    intro _ n hn
    rw [dirNames_nil] at hn
    simp at hn
  | cons e rest ih =>
    intro hwf n hn
    cases e with
    | file m =>
      rw [WFfs_file] at hwf
      rw [dirNames_file] at hn
      exact ih hwf n hn
    | other m =>
      rw [WFfs_other] at hwf
      rw [dirNames_other] at hn
      exact ih hwf n hn
    | dir m sub sf =>
      rw [WFfs_dir] at hwf
      simp only [Bool.and_eq_true, Bool.not_eq_true'] at hwf
      obtain ⟨⟨⟨hres, -⟩, -⟩, hrest⟩ := hwf
      rw [dirNames_dir] at hn
      rcases List.mem_cons.mp hn with rfl | hn1
      · exact hres
      · exact ih hrest n hn1

theorem absChildren_keys_sub : ∀ es : List FSEntry, ∀ cfg : ScanCfg, ∀ path n,
    n ∈ (absChildren cfg path es).map Prod.fst → n ∈ dirNames es := by
  intro es
  induction es with
  | nil =>
    intro cfg path n hn
    rw [absChildren_nil] at hn
    simp at hn
  | cons e rest ih =>
    intro cfg path n hn
    cases e with
    | file m =>
      rw [absChildren_file] at hn
      rw [dirNames_file]
      exact ih cfg path n hn
    | other m =>
      rw [absChildren_other] at hn
      rw [dirNames_other]
      exact ih cfg path n hn
    | dir m sub sf =>
      rw [absChildren_dir] at hn
      rw [dirNames_dir]
      split at hn
      · exact List.mem_cons_of_mem _ (ih cfg path n hn)
      · rw [List.map_cons] at hn
        rcases List.mem_cons.mp hn with rfl | hn1
        · exact List.mem_cons_self _ _
        · exact List.mem_cons_of_mem _ (ih cfg path n hn1)

theorem stubChildren_keys_sub : ∀ es : List FSEntry, ∀ cfg : ScanCfg, ∀ path n,
    n ∈ (stubChildren cfg path es).map Prod.fst → n ∈ dirNames es := by
  intro es
  induction es with
  | nil =>
    intro cfg path n hn
    rw [stubChildren_nil] at hn
    simp at hn
  | cons e rest ih =>
    intro cfg path n hn
    cases e with
    | file m =>
      rw [stubChildren_file] at hn
      rw [dirNames_file]
      exact ih cfg path n hn
    | other m =>
      rw [stubChildren_other] at hn
      rw [dirNames_other]
      exact ih cfg path n hn
    | dir m sub sf =>
      rw [stubChildren_dir] at hn
      rw [dirNames_dir]
      split at hn
      · exact List.mem_cons_of_mem _ (ih cfg path n hn)
      · rw [List.map_cons] at hn
        rcases List.mem_cons.mp hn with rfl | hn1
        · exact List.mem_cons_self _ _
        · exact List.mem_cons_of_mem _ (ih cfg path n hn1)

theorem toDict_mk (p : String) (fs : List String) (err : Option String)
    (cs : List (String × Node)) :
    Node.toDict (.mk p fs err cs) = structD p fs (childrenToDict cs ++ errTail err) := by
  rw [Node.toDict]
  rfl

/-- The crawl of one entry list, over a bucket already holding files
`fs0` and children `cs0`: it appends the accepted files and the crawled
children of the listing, and never raises (no reserved-named directory
can overwrite the files slot). -/
theorem crawlEntries_spec : ∀ es : List FSEntry, ∀ cfg : ScanCfg, ∀ path p0 : String,
    ∀ fs0 : List String, ∀ cs0 : Dict,
    WFfs es = true →
    (∀ k ∈ cs0.map Prod.fst, reservedName k = false) →
    (∀ n ∈ dirNames es, ¬ n ∈ cs0.map Prod.fst) →
    crawlEntries cfg path es (structD p0 fs0 cs0) =
      .ok (structD p0 (fs0 ++ absFiles cfg es)
        (cs0 ++ childrenToDict (absChildren cfg path es))) := by
  apply sizeOf_strongInd (P := fun es => ∀ cfg : ScanCfg, ∀ path p0 : String,
    ∀ fs0 : List String, ∀ cs0 : Dict,
    WFfs es = true →
    (∀ k ∈ cs0.map Prod.fst, reservedName k = false) →
    (∀ n ∈ dirNames es, ¬ n ∈ cs0.map Prod.fst) →
    crawlEntries cfg path es (structD p0 fs0 cs0) =
      .ok (structD p0 (fs0 ++ absFiles cfg es)
        (cs0 ++ childrenToDict (absChildren cfg path es))))
  intro es ih cfg path p0 fs0 cs0 hwf hcs0 hdisj
  cases es with
  | nil =>
    rw [crawlEntries_nil, absFiles_nil, absChildren_nil, childrenToDict_nil]
    simp
  | cons e rest =>
    have hsrest : sizeOf rest < sizeOf (e :: rest) := by
      simp <;> omega
    cases e with
    | file name =>
      rw [WFfs_file] at hwf
      have hdisj' : ∀ n ∈ dirNames rest, ¬ n ∈ cs0.map Prod.fst := by
        intro n hn
        exact hdisj n (by rw [dirNames_file]; exact hn)
      rw [crawlEntries_file]
      by_cases hc : shouldConsiderFile cfg name = true
      · rw [if_pos hc]
        have happ : appendFile (structD p0 fs0 cs0) name =
            .ok (structD p0 (fs0 ++ [name]) cs0) := by
          rw [appendFile, structD_get_files]
          show Except.ok (dictSet (structD p0 fs0 cs0) "__files__"
            (PyVal.vlist (fs0 ++ [name]))) = _
          rw [structD_set_files _ _ _ _ hcs0]
        rw [happ]
        show crawlEntries cfg path rest (structD p0 (fs0 ++ [name]) cs0) = _
        rw [ih rest hsrest cfg path p0 (fs0 ++ [name]) cs0 hwf hcs0 hdisj']
        rw [absFiles_file, if_pos hc, absChildren_file]
        simp
      · rw [if_neg hc]
        rw [ih rest hsrest cfg path p0 fs0 cs0 hwf hcs0 hdisj']
        rw [absFiles_file, if_neg hc, absChildren_file]
    | other name =>
      rw [WFfs_other] at hwf
      have hdisj' : ∀ n ∈ dirNames rest, ¬ n ∈ cs0.map Prod.fst := by
        intro n hn
        exact hdisj n (by rw [dirNames_other]; exact hn)
      rw [crawlEntries_other]
      rw [ih rest hsrest cfg path p0 fs0 cs0 hwf hcs0 hdisj']
      rw [absFiles_other, absChildren_other]
    | dir name sub sf =>
      have hssub : sizeOf sub < sizeOf (FSEntry.dir name sub sf :: rest) := by
        simp <;> omega
      rw [WFfs_dir] at hwf
      simp only [Bool.and_eq_true, Bool.not_eq_true'] at hwf
      obtain ⟨⟨⟨hres, hnotin⟩, hwsub⟩, hwrest⟩ := hwf
      have hdisj' : ∀ n ∈ dirNames rest, ¬ n ∈ cs0.map Prod.fst := by
        intro n hn
        exact hdisj n (by rw [dirNames_dir]; exact List.mem_cons_of_mem _ hn)
      rw [crawlEntries_dir]
      by_cases hig : ignoreDir cfg.ignoreDirs cfg.scanHiddenDirs
          (path ++ "/" ++ name) name = true
      · rw [if_pos hig]
        rw [ih rest hsrest cfg path p0 fs0 cs0 hwrest hcs0 hdisj']
        rw [absFiles_dir, absChildren_dir, if_pos hig]
      · rw [if_neg hig]
        have hsubkeys : ∀ k ∈ (childrenToDict (absChildren cfg (path ++ "/" ++ name) sub)).map
            Prod.fst, reservedName k = false := by
          intro k hk
          rw [childrenToDict_keys] at hk
          exact WFfs_dirNames_reserved sub hwsub k
            (absChildren_keys_sub sub cfg _ k hk)
        have hsubeq : crawlEntries cfg (path ++ "/" ++ name) sub
            (initD (path ++ "/" ++ name)) =
            .ok (structD (path ++ "/" ++ name) (absFiles cfg sub)
              (childrenToDict (absChildren cfg (path ++ "/" ++ name) sub))) := by
          have h0 := ih sub hssub cfg (path ++ "/" ++ name) (path ++ "/" ++ name)
            [] [] hwsub (by simp) (by simp)
          rw [show initD (path ++ "/" ++ name) =
            structD (path ++ "/" ++ name) [] [] from rfl]
          rw [h0]
          simp
        rw [hsubeq]
        have hfault : addFault sf (structD (path ++ "/" ++ name) (absFiles cfg sub)
            (childrenToDict (absChildren cfg (path ++ "/" ++ name) sub))) =
            Node.toDict (.mk (path ++ "/" ++ name) (absFiles cfg sub) sf
              (absChildren cfg (path ++ "/" ++ name) sub)) := by
          rw [toDict_mk]
          cases sf with
          | none =>
            rw [addFault, errTail, List.append_nil]
          | some f =>
            rw [addFault, errTail]
            apply structD_set_fresh
            · decide
            · decide
            · intro hm
              have := hsubkeys _ hm
              rw [reservedName] at this
              simp at this
        rw [show ∀ x : Dict, Except.map (addFault sf) (Except.ok x : Except String Dict) =
          Except.ok (addFault sf x) from fun x => rfl]
        rw [hfault]
        show crawlEntries cfg path rest (dictSet (structD p0 fs0 cs0) name
          (.vdict (Node.toDict (.mk (path ++ "/" ++ name) (absFiles cfg sub) sf
            (absChildren cfg (path ++ "/" ++ name) sub))))) = _
        obtain ⟨hne1, hne2, -⟩ := reserved_keys_ne hres
        rw [structD_set_fresh _ _ _ _ _ hne1 hne2
          (hdisj name (by rw [dirNames_dir]; exact List.mem_cons_self _ _))]
        have hcs0' : ∀ k ∈ (cs0 ++ [(name, PyVal.vdict (Node.toDict
            (.mk (path ++ "/" ++ name) (absFiles cfg sub) sf
              (absChildren cfg (path ++ "/" ++ name) sub))))]).map Prod.fst,
            reservedName k = false := by
          intro k hk
          rw [List.map_append] at hk
          rcases List.mem_append.mp hk with h1 | h1
          · exact hcs0 k h1
          · have : k = name := by simpa using h1
            rw [this]
            exact hres
        have hdisj2 : ∀ n ∈ dirNames rest, ¬ n ∈ (cs0 ++ [(name, PyVal.vdict (Node.toDict
            (.mk (path ++ "/" ++ name) (absFiles cfg sub) sf
              (absChildren cfg (path ++ "/" ++ name) sub))))]).map Prod.fst := by
          intro n hn hm
          rw [List.map_append] at hm
          rcases List.mem_append.mp hm with h1 | h1
          · exact hdisj' n hn h1
          · have hnn : n = name := by simpa using h1
            have hnotmem : ¬ name ∈ dirNames rest := by
              intro hm
              have : (dirNames rest).contains name = true := by
                rw [List.contains_iff_exists_mem_beq]
                exact ⟨name, hm, by simp⟩
              rw [this] at hnotin
              exact absurd hnotin (by simp)
            rw [hnn] at hn
            exact hnotmem hn
        rw [ih rest hsrest cfg path p0 fs0 _ hwrest hcs0' hdisj2]
        rw [absFiles_dir, absChildren_dir, if_neg hig]
        rw [childrenToDict_cons]
        simp

/-- `_crawl_dir` of a whole directory returns exactly the dict image of
the abstract crawl. -/
theorem crawlDir_spec (cfg : ScanCfg) (path : String) (es : List FSEntry)
    (fault : Option String) (hwf : WFfs es = true) :
    crawlDir cfg path es fault = .ok (Node.toDict (scanDirAbs cfg path es fault)) := by
  rw [crawlDir]
  rw [show initD path = structD path [] [] from rfl]
  rw [crawlEntries_spec es cfg path path [] [] hwf (by simp) (by simp)]
  rw [show ∀ x : Dict, Except.map (addFault fault) (Except.ok x : Except String Dict) =
    Except.ok (addFault fault x) from fun x => rfl]
  rw [scanDirAbs, toDict_mk]
  simp only [List.nil_append]
  cases fault with
  | none =>
    rw [addFault, errTail, List.append_nil]
  | some f =>
    rw [addFault, errTail]
    congr 1
    apply structD_set_fresh
    · decide
    · decide
    · intro hm
      rw [childrenToDict_keys] at hm
      have := WFfs_dirNames_reserved es hwf _ (absChildren_keys_sub es cfg path _ hm)
      rw [reservedName] at this
      simp at this

theorem stub_toDict (cp : String) :
    Node.toDict (.mk cp [] none []) = initD cp := by
  rw [toDict_mk, childrenToDict_nil, errTail]
  rfl

/-- `skim_dir`'s entry loop: appends the accepted files and one fresh
stub per non-ignored subdirectory. -/
theorem skimEntries_spec : ∀ es : List FSEntry, ∀ cfg : ScanCfg, ∀ path p0 : String,
    ∀ fs0 : List String, ∀ cs0 : Dict,
    WFfs es = true →
    (∀ k ∈ cs0.map Prod.fst, reservedName k = false) →
    (∀ n ∈ dirNames es, ¬ n ∈ cs0.map Prod.fst) →
    skimEntries cfg path es (structD p0 fs0 cs0) =
      .ok (structD p0 (fs0 ++ absFiles cfg es)
        (cs0 ++ childrenToDict (stubChildren cfg path es))) := by
  intro es
  induction es with
  | nil =>
    intro cfg path p0 fs0 cs0 hwf hcs0 hdisj
    rw [skimEntries, absFiles_nil, stubChildren_nil, childrenToDict_nil]
    simp
  | cons e rest ih =>
    intro cfg path p0 fs0 cs0 hwf hcs0 hdisj
    cases e with
    | file name =>
      rw [WFfs_file] at hwf
      have hdisj' : ∀ n ∈ dirNames rest, ¬ n ∈ cs0.map Prod.fst := fun n hn =>
        hdisj n (by rw [dirNames_file]; exact hn)
      rw [skimEntries]
      by_cases hc : shouldConsiderFile cfg name = true
      · rw [if_pos hc]
        have happ : appendFile (structD p0 fs0 cs0) name =
            .ok (structD p0 (fs0 ++ [name]) cs0) := by
          rw [appendFile, structD_get_files]
          show Except.ok (dictSet (structD p0 fs0 cs0) "__files__"
            (PyVal.vlist (fs0 ++ [name]))) = _
          rw [structD_set_files _ _ _ _ hcs0]
        rw [happ]
        show skimEntries cfg path rest (structD p0 (fs0 ++ [name]) cs0) = _
        rw [ih cfg path p0 (fs0 ++ [name]) cs0 hwf hcs0 hdisj']
        rw [absFiles_file, if_pos hc, stubChildren_file]
        simp
      · rw [if_neg hc]
        rw [ih cfg path p0 fs0 cs0 hwf hcs0 hdisj']
        rw [absFiles_file, if_neg hc, stubChildren_file]
    | other name =>
      rw [WFfs_other] at hwf
      have hdisj' : ∀ n ∈ dirNames rest, ¬ n ∈ cs0.map Prod.fst := fun n hn =>
        hdisj n (by rw [dirNames_other]; exact hn)
      rw [skimEntries]
      rw [ih cfg path p0 fs0 cs0 hwf hcs0 hdisj']
      rw [absFiles_other, stubChildren_other]
    | dir name sub sf =>
      rw [WFfs_dir] at hwf
      simp only [Bool.and_eq_true, Bool.not_eq_true'] at hwf
      obtain ⟨⟨⟨hres, hnotin⟩, hwsub⟩, hwrest⟩ := hwf
      have hdisj' : ∀ n ∈ dirNames rest, ¬ n ∈ cs0.map Prod.fst := fun n hn =>
        hdisj n (by rw [dirNames_dir]; exact List.mem_cons_of_mem _ hn)
      rw [skimEntries]
      by_cases hig : ignoreDir cfg.ignoreDirs cfg.scanHiddenDirs
          (path ++ "/" ++ name) name = true
      · rw [if_pos hig]
        rw [ih cfg path p0 fs0 cs0 hwrest hcs0 hdisj']
        rw [absFiles_dir, stubChildren_dir, if_pos hig]
      · rw [if_neg hig]
        obtain ⟨hne1, hne2, -⟩ := reserved_keys_ne hres
        rw [structD_set_fresh _ _ _ _ _ hne1 hne2
          (hdisj name (by rw [dirNames_dir]; exact List.mem_cons_self _ _))]
        have hcs0' : ∀ k ∈ (cs0 ++ [(name, PyVal.vdict (initD (path ++ "/" ++ name)))]).map
            Prod.fst, reservedName k = false := by
          intro k hk
          rw [List.map_append] at hk
          rcases List.mem_append.mp hk with h1 | h1
          · exact hcs0 k h1
          · have : k = name := by simpa using h1
            rw [this]
            exact hres
        have hdisj2 : ∀ n ∈ dirNames rest,
            ¬ n ∈ (cs0 ++ [(name, PyVal.vdict (initD (path ++ "/" ++ name)))]).map
              Prod.fst := by
          intro n hn hm
          rw [List.map_append] at hm
          rcases List.mem_append.mp hm with h1 | h1
          · exact hdisj' n hn h1
          · have hnn : n = name := by simpa using h1
            have hnotmem : ¬ name ∈ dirNames rest := by
              intro hmem
              have hcontains : (dirNames rest).contains name = true := by
                rw [List.contains_iff_exists_mem_beq]
                exact ⟨name, hmem, by simp⟩
              rw [hcontains] at hnotin
              exact absurd hnotin (by simp)
            rw [hnn] at hn
            exact hnotmem hn
        rw [ih cfg path p0 fs0 _ hwrest hcs0' hdisj2]
        rw [absFiles_dir, stubChildren_dir, if_neg hig]
        rw [childrenToDict_cons, stub_toDict]
        simp

/-- The worker loop: each stub gets overwritten, in place, by the crawled
sub-tree of its directory. -/
theorem crawlChildren_spec : ∀ es : List FSEntry, ∀ cfg : ScanCfg, ∀ path p0 : String,
    ∀ fs0 : List String, ∀ cs0 : Dict,
    WFfs es = true →
    (∀ k ∈ cs0.map Prod.fst, reservedName k = false) →
    (∀ n ∈ dirNames es, ¬ n ∈ cs0.map Prod.fst) →
    crawlChildren cfg path es
        (structD p0 fs0 (cs0 ++ childrenToDict (stubChildren cfg path es))) =
      .ok (structD p0 fs0 (cs0 ++ childrenToDict (absChildren cfg path es))) := by
  intro es
  induction es with
  | nil =>
    intro cfg path p0 fs0 cs0 hwf hcs0 hdisj
    rw [stubChildren_nil, absChildren_nil, childrenToDict_nil, crawlChildren_nil]
  | cons e rest ih =>
    intro cfg path p0 fs0 cs0 hwf hcs0 hdisj
    cases e with
    | file name =>
      rw [WFfs_file] at hwf
      rw [stubChildren_file, absChildren_file, crawlChildren_file]
      exact ih cfg path p0 fs0 cs0 hwf hcs0
        (fun n hn => hdisj n (by rw [dirNames_file]; exact hn))
    | other name =>
      rw [WFfs_other] at hwf
      rw [stubChildren_other, absChildren_other, crawlChildren_other]
      exact ih cfg path p0 fs0 cs0 hwf hcs0
        (fun n hn => hdisj n (by rw [dirNames_other]; exact hn))
    | dir name sub sf =>
      rw [WFfs_dir] at hwf
      simp only [Bool.and_eq_true, Bool.not_eq_true'] at hwf
      obtain ⟨⟨⟨hres, hnotin⟩, hwsub⟩, hwrest⟩ := hwf
      have hdisj' : ∀ n ∈ dirNames rest, ¬ n ∈ cs0.map Prod.fst := fun n hn =>
        hdisj n (by rw [dirNames_dir]; exact List.mem_cons_of_mem _ hn)
      have hnotmem : ¬ name ∈ dirNames rest := by
        intro hmem
        have hcontains : (dirNames rest).contains name = true := by
          rw [List.contains_iff_exists_mem_beq]
          exact ⟨name, hmem, by simp⟩
        rw [hcontains] at hnotin
        exact absurd hnotin (by simp)
      rw [stubChildren_dir, absChildren_dir, crawlChildren_dir]
      by_cases hig : ignoreDir cfg.ignoreDirs cfg.scanHiddenDirs
          (path ++ "/" ++ name) name = true
      · rw [if_pos hig, if_pos hig, if_pos hig]
        exact ih cfg path p0 fs0 cs0 hwrest hcs0 hdisj'
      · rw [if_neg hig, if_neg hig, if_neg hig]
        rw [crawlDir_spec cfg _ sub sf hwsub]
        rw [childrenToDict_cons, stub_toDict]
        show crawlChildren cfg path rest
          (dictSet (structD p0 fs0 (cs0 ++ (name, PyVal.vdict (initD (path ++ "/" ++ name))) ::
            childrenToDict (stubChildren cfg path rest))) name
            (PyVal.vdict (Node.toDict (scanDirAbs cfg (path ++ "/" ++ name) sub sf)))) = _
        obtain ⟨hne1, hne2, -⟩ := reserved_keys_ne hres
        have hfresht : ¬ name ∈ (childrenToDict (stubChildren cfg path rest)).map
            Prod.fst := by
          rw [childrenToDict_keys]
          intro hm
          exact hnotmem (stubChildren_keys_sub rest cfg path name hm)
        rw [structD_set_present_mid _ _ _ _ _ _ _ hne1 hne2
          (hdisj name (by rw [dirNames_dir]; exact List.mem_cons_self _ _)) hfresht]
        have hstep : (structD p0 fs0 (cs0 ++ (name, PyVal.vdict
            (Node.toDict (scanDirAbs cfg (path ++ "/" ++ name) sub sf))) ::
              childrenToDict (stubChildren cfg path rest))) =
            structD p0 fs0 ((cs0 ++ [(name, PyVal.vdict
              (Node.toDict (scanDirAbs cfg (path ++ "/" ++ name) sub sf)))]) ++
              childrenToDict (stubChildren cfg path rest)) := by
          simp
        rw [hstep]
        have hcs0' : ∀ k ∈ (cs0 ++ [(name, PyVal.vdict
            (Node.toDict (scanDirAbs cfg (path ++ "/" ++ name) sub sf)))]).map
              Prod.fst, reservedName k = false := by
          intro k hk
          rw [List.map_append] at hk
          rcases List.mem_append.mp hk with h1 | h1
          · exact hcs0 k h1
          · have : k = name := by simpa using h1
            rw [this]
            exact hres
        have hdisj2 : ∀ n ∈ dirNames rest, ¬ n ∈ (cs0 ++ [(name, PyVal.vdict
            (Node.toDict (scanDirAbs cfg (path ++ "/" ++ name) sub sf)))]).map
              Prod.fst := by
          intro n hn hm
          rw [List.map_append] at hm
          rcases List.mem_append.mp hm with h1 | h1
          · exact hdisj' n hn h1
          · have hnn : n = name := by simpa using h1
            rw [hnn] at hn
            exact hnotmem hn
        rw [ih cfg path p0 fs0 _ hwrest hcs0' hdisj2]
        rw [childrenToDict_cons, scanDirAbs]
        simp

theorem childrenToDict_all_isDict (cs : List (String × Node)) :
    ∀ kv ∈ childrenToDict cs, kv.2.isDict = true := by
  intro kv hkv
  rw [childrenToDict_eq_map] at hkv
  rw [List.mem_map] at hkv
  obtain ⟨nc, -, rfl⟩ := hkv
  rfl

/-- `begin_scan` under filesystem well-formedness: exactly the abstract
contract `beginScanAbs`. -/
theorem beginScan_spec (cfg : ScanCfg) (path : String) (es : List FSEntry)
    (fault : Option String) (hwf : WFfs es = true) :
    beginScan cfg path es fault =
      (match beginScanAbs cfg path es fault with
       | some (t, w) => (.ok (Node.toDict t), w)
       | none => (.error "ValueError: max_workers must be greater than 0", 0)) := by
  have hstubkeys : ∀ k ∈ (childrenToDict (stubChildren cfg path es)).map Prod.fst,
      reservedName k = false := by
    intro k hk
    rw [childrenToDict_keys] at hk
    exact WFfs_dirNames_reserved es hwf k (stubChildren_keys_sub es cfg path k hk)
  rw [beginScan, skimDir]
  rw [show initD path = structD path [] [] from rfl]
  rw [skimEntries_spec es cfg path path [] [] hwf (by simp) (by simp)]
  rw [show ∀ x : Dict, Except.map (addFault fault) (Except.ok x : Except String Dict) =
    Except.ok (addFault fault x) from fun x => rfl]
  simp only [List.nil_append]
  cases fault with
  | some f =>
    rw [addFault]
    rw [structD_set_fresh _ _ _ _ _ (by decide) (by decide) (by
      intro hm
      have := hstubkeys _ hm
      rw [reservedName] at this
      simp at this)]
    show (if dictHasKey (structD path (absFiles cfg es)
        (childrenToDict (stubChildren cfg path es) ++ [("__error__", PyVal.vstr f)]))
        "__error__" = true then _ else _) = _
    rw [structD_hasKey_error_true]
    rw [beginScanAbs]
    simp only [if_true]
    rw [toDict_mk, errTail]
  | none =>
    rw [addFault]
    show (if dictHasKey (structD path (absFiles cfg es)
        (childrenToDict (stubChildren cfg path es))) "__error__" = true
      then _ else _) = _
    rw [structD_hasKey_error_false _ _ _ hstubkeys]
    simp only [Bool.false_eq_true, if_false]
    rw [structD_countP_isDict _ _ _ (childrenToDict_all_isDict _)]
    rw [childrenToDict_length]
    rw [beginScanAbs]
    by_cases hmw : min (stubChildren cfg path es).length MAX_WORKERS = 0
    · rw [if_pos hmw, if_pos hmw, hmw]
    · rw [if_neg hmw, if_neg hmw]
      have hcc := crawlChildren_spec es cfg path path (absFiles cfg es) [] hwf
        (by simp) (by simp)
      simp only [List.nil_append] at hcc
      rw [hcc, scanDirAbs]
      show (Except.ok (structD path (absFiles cfg es) (childrenToDict (absChildren cfg path es))),
          min (stubChildren cfg path es).length MAX_WORKERS) =
        (Except.ok (Node.toDict (Node.mk path (absFiles cfg es) none
          (absChildren cfg path es))),
          min (stubChildren cfg path es).length MAX_WORKERS)
      rw [toDict_mk, errTail, List.append_nil]

theorem contains_false_of_not_mem {l : List String} {a : String} (h : ¬ a ∈ l) :
    l.contains a = false := by
  cases hc : l.contains a with
  | false => rfl
  | true =>
    exfalso
    obtain ⟨x, hx, hbeq⟩ := List.contains_iff_exists_mem_beq.mp hc
    have hax : a = x := by simpa using hbeq
    rw [hax] at h
    exact h hx

theorem not_mem_of_contains_false {l : List String} {a : String}
    (h : l.contains a = false) : ¬ a ∈ l := by
  intro hm
  have : l.contains a = true := by
    rw [List.contains_iff_exists_mem_beq]
    exact ⟨a, hm, by simp⟩
  rw [this] at h
  simp at h

theorem absChildren_distinct : ∀ es : List FSEntry, ∀ cfg : ScanCfg, ∀ path : String,
    WFfs es = true → distinctKeys ((absChildren cfg path es).map Prod.fst) = true := by
  intro es
  induction es with
  | nil =>
    intro cfg path h
    rw [absChildren_nil]
    simp [distinctKeys]
  | cons e rest ih =>
    intro cfg path hwf
    cases e with
    | file n =>
      rw [WFfs_file] at hwf
      rw [absChildren_file]
      exact ih cfg path hwf
    | other n =>
      rw [WFfs_other] at hwf
      rw [absChildren_other]
      exact ih cfg path hwf
    | dir n sub sf =>
      rw [WFfs_dir] at hwf
      simp only [Bool.and_eq_true, Bool.not_eq_true'] at hwf
      obtain ⟨⟨⟨hres, hnotin⟩, hwsub⟩, hwrest⟩ := hwf
      rw [absChildren_dir]
      by_cases hig : ignoreDir cfg.ignoreDirs cfg.scanHiddenDirs
          (path ++ "/" ++ n) n = true
      · rw [if_pos hig]
        exact ih cfg path hwrest
      · rw [if_neg hig, List.map_cons, distinctKeys]
        simp only [Bool.and_eq_true, Bool.not_eq_true']
        constructor
        · apply contains_false_of_not_mem
          intro hm
          exact not_mem_of_contains_false hnotin (absChildren_keys_sub rest cfg path n hm)
        · exact ih cfg path hwrest

theorem stubChildren_distinct : ∀ es : List FSEntry, ∀ cfg : ScanCfg, ∀ path : String,
    WFfs es = true → distinctKeys ((stubChildren cfg path es).map Prod.fst) = true := by
  intro es
  induction es with
  | nil =>
    intro cfg path h
    rw [stubChildren_nil]
    simp [distinctKeys]
  | cons e rest ih =>
    intro cfg path hwf
    cases e with
    | file n =>
      rw [WFfs_file] at hwf
      rw [stubChildren_file]
      exact ih cfg path hwf
    | other n =>
      rw [WFfs_other] at hwf
      rw [stubChildren_other]
      exact ih cfg path hwf
    | dir n sub sf =>
      rw [WFfs_dir] at hwf
      simp only [Bool.and_eq_true, Bool.not_eq_true'] at hwf
      obtain ⟨⟨⟨hres, hnotin⟩, hwsub⟩, hwrest⟩ := hwf
      rw [stubChildren_dir]
      by_cases hig : ignoreDir cfg.ignoreDirs cfg.scanHiddenDirs
          (path ++ "/" ++ n) n = true
      · rw [if_pos hig]
        exact ih cfg path hwrest
      · rw [if_neg hig, List.map_cons, distinctKeys]
        simp only [Bool.and_eq_true, Bool.not_eq_true']
        constructor
        · apply contains_false_of_not_mem
          intro hm
          exact not_mem_of_contains_false hnotin (stubChildren_keys_sub rest cfg path n hm)
        · exact ih cfg path hwrest

theorem WFnode_stub (cp : String) : WFnode (Node.mk cp [] none []) = true := by
  rw [WFnode, WFchildren]
  simp [distinctKeys]

theorem stubChildren_WF : ∀ es : List FSEntry, ∀ cfg : ScanCfg, ∀ path : String,
    WFfs es = true → WFchildren (stubChildren cfg path es) = true := by
  intro es
  induction es with
  | nil =>
    intro cfg path h
    rw [stubChildren_nil, WFchildren]
  | cons e rest ih =>
    intro cfg path hwf
    cases e with
    | file n =>
      rw [WFfs_file] at hwf
      rw [stubChildren_file]
      exact ih cfg path hwf
    | other n =>
      rw [WFfs_other] at hwf
      rw [stubChildren_other]
      exact ih cfg path hwf
    | dir n sub sf =>
      rw [WFfs_dir] at hwf
      simp only [Bool.and_eq_true, Bool.not_eq_true'] at hwf
      obtain ⟨⟨⟨hres, hnotin⟩, hwsub⟩, hwrest⟩ := hwf
      rw [stubChildren_dir]
      by_cases hig : ignoreDir cfg.ignoreDirs cfg.scanHiddenDirs
          (path ++ "/" ++ n) n = true
      · rw [if_pos hig]
        exact ih cfg path hwrest
      · rw [if_neg hig, WFchildren]
        simp only [Bool.and_eq_true]
        exact ⟨WFnode_stub _, ih cfg path hwrest⟩

theorem absChildren_WF : ∀ es : List FSEntry, ∀ cfg : ScanCfg, ∀ path : String,
    WFfs es = true → WFchildren (absChildren cfg path es) = true := by
  refine sizeOf_strongInd (fun es => ∀ cfg path, WFfs es = true →
    WFchildren (absChildren cfg path es) = true) ?_
  intro es ih cfg path hwf
  cases es with
  | nil =>
    rw [absChildren_nil, WFchildren]
  | cons e rest =>
    have hrest_lt : sizeOf rest < sizeOf (e :: rest) := by
      simp
    cases e with
    | file n =>
      rw [WFfs_file] at hwf
      rw [absChildren_file]
      exact ih rest hrest_lt cfg path hwf
    | other n =>
      rw [WFfs_other] at hwf
      rw [absChildren_other]
      exact ih rest hrest_lt cfg path hwf
    | dir n sub sf =>
      rw [WFfs_dir] at hwf
      simp only [Bool.and_eq_true, Bool.not_eq_true'] at hwf
      obtain ⟨⟨⟨hres, hnotin⟩, hwsub⟩, hwrest⟩ := hwf
      rw [absChildren_dir]
      by_cases hig : ignoreDir cfg.ignoreDirs cfg.scanHiddenDirs
          (path ++ "/" ++ n) n = true
      · rw [if_pos hig]
        exact ih rest hrest_lt cfg path hwrest
      · rw [if_neg hig, WFchildren]
        simp only [Bool.and_eq_true]
        constructor
        · rw [WFnode]
          simp only [Bool.and_eq_true]
          refine ⟨⟨?_, ?_⟩, ?_⟩
          · rw [List.all_eq_true]
            intro nc hmem
            have hk : nc.1 ∈ (absChildren cfg (path ++ "/" ++ n) sub).map Prod.fst :=
              List.mem_map_of_mem _ hmem
            have := WFfs_dirNames_reserved sub hwsub nc.1
              (absChildren_keys_sub sub cfg _ nc.1 hk)
            simp [this]
          · exact absChildren_distinct sub cfg _ hwsub
          · have hsub_lt : sizeOf sub < sizeOf (FSEntry.dir n sub sf :: rest) := by
              simp
              omega
            exact ih sub hsub_lt cfg _ hwsub
        · exact ih rest hrest_lt cfg path hwrest

theorem beginScanAbs_WF {cfg : ScanCfg} {path : String} {es : List FSEntry}
    {fault : Option String} {t : Node} {w : Nat}
    (hwf : WFfs es = true) (habs : beginScanAbs cfg path es fault = some (t, w)) :
    WFnode t = true := by
  cases fault with
  | some f =>
    simp only [beginScanAbs] at habs
    have heq : Node.mk path (absFiles cfg es) (some f) (stubChildren cfg path es) = t :=
      (Prod.mk.inj (Option.some.inj habs)).1
    rw [← heq, WFnode]
    simp only [Bool.and_eq_true]
    refine ⟨⟨?_, ?_⟩, ?_⟩
    · rw [List.all_eq_true]
      intro nc hmem
      have hk : nc.1 ∈ (stubChildren cfg path es).map Prod.fst :=
        List.mem_map_of_mem _ hmem
      have := WFfs_dirNames_reserved es hwf nc.1 (stubChildren_keys_sub es cfg path nc.1 hk)
      simp [this]
    · exact stubChildren_distinct es cfg path hwf
    · exact stubChildren_WF es cfg path hwf
  | none =>
    simp only [beginScanAbs] at habs
    by_cases hmw : min (stubChildren cfg path es).length MAX_WORKERS = 0
    · rw [if_pos hmw] at habs
      exact absurd habs (by simp)
    · rw [if_neg hmw] at habs
      have heq : scanDirAbs cfg path es none = t :=
        (Prod.mk.inj (Option.some.inj habs)).1
      rw [← heq, scanDirAbs, WFnode]
      simp only [Bool.and_eq_true]
      refine ⟨⟨?_, ?_⟩, ?_⟩
      · rw [List.all_eq_true]
        intro nc hmem
        have hk : nc.1 ∈ (absChildren cfg path es).map Prod.fst :=
          List.mem_map_of_mem _ hmem
        have := WFfs_dirNames_reserved es hwf nc.1 (absChildren_keys_sub es cfg path nc.1 hk)
        simp [this]
      · exact absChildren_distinct es cfg path hwf
      · exact absChildren_WF es cfg path hwf

theorem allNodes_eq (t : Node) : allNodes t = t :: allNodesChildren t.children := by
  obtain ⟨p, fs, err, cs⟩ := t
  rw [allNodes, Node.children]

theorem mem_allNodesChildren {nd : Node} : ∀ cs : List (String × Node),
    nd ∈ allNodesChildren cs → ∃ n c, (n, c) ∈ cs ∧ nd ∈ allNodes c := by
  intro cs
  induction cs with
  | nil =>
    intro h
    rw [allNodesChildren] at h
    simp at h
  | cons nc rest ih =>
    intro h
    obtain ⟨n1, c1⟩ := nc
    rw [allNodesChildren] at h
    rcases List.mem_append.mp h with h1 | h1
    · exact ⟨n1, c1, List.mem_cons_self _ _, h1⟩
    · obtain ⟨n2, c2, hm, hin⟩ := ih h1
      exact ⟨n2, c2, List.mem_cons_of_mem _ hm, hin⟩

theorem WF_allNodes : ∀ t : Node, WFnode t = true →
    ∀ nd ∈ allNodes t, WFnode nd = true := by
  refine sizeOf_strongInd (fun t => WFnode t = true →
    ∀ nd ∈ allNodes t, WFnode nd = true) ?_
  intro t ih hwf nd hmem
  obtain ⟨p, fs, err, cs⟩ := t
  rw [allNodes] at hmem
  rcases List.mem_cons.mp hmem with heq | h1
  · rw [heq]
    exact hwf
  · obtain ⟨n1, c1, hmc, hin⟩ := mem_allNodesChildren cs h1
    rw [WFnode] at hwf
    simp only [Bool.and_eq_true] at hwf
    exact ih c1 (sizeOf_child_lt hmc) (WFchildren_mem hwf.2 hmc) nd hin

theorem nestedEntries_childrenToDict : ∀ cs : List (String × Node),
    (∀ n c, (n, c) ∈ cs → (nestedEntries (Node.toDict c)).map Prod.snd =
      (allNodesChildren c.children).map Node.toDict) →
    (nestedEntries (childrenToDict cs)).map Prod.snd =
      (allNodesChildren cs).map Node.toDict := by
  intro cs
  induction cs with
  | nil =>
    intro h
    rw [childrenToDict_nil, nestedEntries_nil, allNodesChildren]
    simp
  | cons nc rest ih =>
    intro h
    obtain ⟨n1, c1⟩ := nc
    rw [childrenToDict_cons, nestedEntries_cons_vdict, allNodesChildren]
    rw [List.map_cons, List.map_append, List.map_append]
    rw [h n1 c1 (List.mem_cons_self _ _)]
    rw [ih (fun n c hm => h n c (List.mem_cons_of_mem _ hm))]
    rw [allNodes_eq c1, List.map_cons]
    simp

theorem nestedEntries_toDict : ∀ t : Node,
    (nestedEntries (Node.toDict t)).map Prod.snd =
      (allNodesChildren t.children).map Node.toDict := by
  refine sizeOf_strongInd (fun t => (nestedEntries (Node.toDict t)).map Prod.snd =
    (allNodesChildren t.children).map Node.toDict) ?_
  intro t ih
  obtain ⟨p, fs, err, cs⟩ := t
  rw [Node.toDict, nestedEntries_cons_vstr, nestedEntries_cons_vlist,
    nestedEntries_append, Node.children]
  have herr : nestedEntries (errTail err) = [] := by
    cases err with
    | none => rw [errTail, nestedEntries_nil]
    | some e => rw [errTail, nestedEntries_cons_vstr, nestedEntries_nil]
  rw [herr, List.append_nil]
  exact nestedEntries_childrenToDict cs (fun n c hm => ih c (sizeOf_child_lt hm))

theorem allBuckets_toDict (t : Node) :
    allBuckets (Node.toDict t) = (allNodes t).map Node.toDict := by
  rw [allBuckets, nestedEntries_toDict, allNodes_eq, List.map_cons]

theorem toDict_hasKey_error_wf {nd : Node} (h : WFnode nd = true) :
    dictHasKey (Node.toDict nd) "__error__" = nd.error.isSome := by
  obtain ⟨p, fs, err, cs⟩ := nd
  rw [WFnode] at h
  simp only [Bool.and_eq_true] at h
  rw [Node.error]
  exact toDict_hasKey_error h.1.1

/-- C2 (amended). On a filesystem whose directory names are never one of
the reserved keys `__path__`, `__files__`, `__error__` and are distinct
among siblings, `begin_scan` returns exactly the dict image of the
abstract scan tree, and a bucket of the returned tree carries the
`__error__` key if and only if it is the image of a node whose directory
listing faulted. In particular every directory that listed successfully
yields a bucket without an error field. Without the naming restriction
the claim fails: see the counterexample, where a successfully-listed
directory named `__error__` makes the scan misreport an error. -/
theorem claim_C2_error_key_iff (cfg : ScanCfg) (path : String) (es : List FSEntry)
    (fault : Option String) (t : Node) (w : Nat)
    (hwf : WFfs es = true) (habs : beginScanAbs cfg path es fault = some (t, w)) :
    beginScan cfg path es fault = (.ok (Node.toDict t), w) ∧
    ∀ b ∈ allBuckets (Node.toDict t),
      (dictHasKey b "__error__" = true ↔
        ∃ nd ∈ allNodes t, Node.toDict nd = b ∧ nd.error.isSome = true) := by
  have hwft : WFnode t = true := beginScanAbs_WF hwf habs
  constructor
  · rw [beginScan_spec cfg path es fault hwf, habs]
  · intro b hb
    rw [allBuckets_toDict] at hb
    obtain ⟨nd0, hnd0, rfl⟩ := List.mem_map.mp hb
    constructor
    · intro hkey
      rw [toDict_hasKey_error_wf (WF_allNodes t hwft nd0 hnd0)] at hkey
      exact ⟨nd0, hnd0, rfl, hkey⟩
    · rintro ⟨nd1, hnd1, heq, hsome⟩
      rw [← heq, toDict_hasKey_error_wf (WF_allNodes t hwft nd1 hnd1)]
      exact hsome

/-- Witness for C2 (amended): a root with one healthy subdirectory and
one whose listing faults. -/
theorem claim_C2_witness :
    WFfs [FSEntry.dir "ok" [FSEntry.file "a.txt"] none,
        FSEntry.dir "bad" [] (some "PermissionError")] = true ∧
    beginScanAbs ⟨[], true, true, none, none⟩ "/r"
        [FSEntry.dir "ok" [FSEntry.file "a.txt"] none,
         FSEntry.dir "bad" [] (some "PermissionError")] none =
      some (Node.mk "/r" [] none
        [("ok", Node.mk "/r/ok" ["a.txt"] none []),
         ("bad", Node.mk "/r/bad" [] (some "PermissionError") [])], 2) ∧
    (beginScan ⟨[], true, true, none, none⟩ "/r"
        [FSEntry.dir "ok" [FSEntry.file "a.txt"] none,
         FSEntry.dir "bad" [] (some "PermissionError")] none =
      (.ok (Node.toDict (Node.mk "/r" [] none
        [("ok", Node.mk "/r/ok" ["a.txt"] none []),
         ("bad", Node.mk "/r/bad" [] (some "PermissionError") [])])), 2) ∧
    ∀ b ∈ allBuckets (Node.toDict (Node.mk "/r" [] none
        [("ok", Node.mk "/r/ok" ["a.txt"] none []),
         ("bad", Node.mk "/r/bad" [] (some "PermissionError") [])])),
      (dictHasKey b "__error__" = true ↔
        ∃ nd ∈ allNodes (Node.mk "/r" [] none
          [("ok", Node.mk "/r/ok" ["a.txt"] none []),
           ("bad", Node.mk "/r/bad" [] (some "PermissionError") [])]),
          Node.toDict nd = b ∧ nd.error.isSome = true)) := by
  have hwf : WFfs [FSEntry.dir "ok" [FSEntry.file "a.txt"] none,
      FSEntry.dir "bad" [] (some "PermissionError")] = true := by
    simp [WFfs_dir, WFfs_file, WFfs_nil, dirNames_dir, dirNames_file, dirNames_nil,
      reservedName]
  have habs : beginScanAbs ⟨[], true, true, none, none⟩ "/r"
      [FSEntry.dir "ok" [FSEntry.file "a.txt"] none,
       FSEntry.dir "bad" [] (some "PermissionError")] none =
      some (Node.mk "/r" [] none
        [("ok", Node.mk "/r/ok" ["a.txt"] none []),
         ("bad", Node.mk "/r/bad" [] (some "PermissionError") [])], 2) := by
    simp [beginScanAbs, stubChildren_dir, stubChildren_file, stubChildren_nil,
      scanDirAbs, absFiles_dir, absFiles_file, absFiles_nil,
      absChildren_dir, absChildren_file, absChildren_nil,
      ignoreDir, shouldConsiderFile, pyStartsWith, MAX_WORKERS]
  exact ⟨hwf, habs, claim_C2_error_key_iff _ "/r" _ none _ 2 hwf habs⟩

/-! ### Claim C9: static partition of the crawl among workers

`begin_scan` submits one `_crawl_dir` call per root-level child bucket;
a worker's queue starts at its bucket's path and only ever enqueues
`entry.path = target_path + "/" + entry.name` for directory entries of
directories it itself listed.  `listedPaths` collects the directory
paths one worker lists; `workerTargets` is the launch-time partition,
one entry per non-ignored root-level directory. -/

mutual
/-- All directory paths the worker crawling `path` (entries `es`) lists:
its own directory first, then, for every non-ignored subdirectory,
recursively the paths of that subtree's crawl. -/
def listedPaths (cfg : ScanCfg) (path : String) (es : List FSEntry) : List String :=
  path :: listedChildren cfg path es
termination_by (sizeOf es, 1)

def listedChildren (cfg : ScanCfg) (path : String) : List FSEntry → List String
  | [] => []
  | .dir n sub _ :: rest =>
    (if ignoreDir cfg.ignoreDirs cfg.scanHiddenDirs (path ++ "/" ++ n) n then []
     else listedPaths cfg (path ++ "/" ++ n) sub) ++ listedChildren cfg path rest
  | .file _ :: rest => listedChildren cfg path rest
  | .other _ :: rest => listedChildren cfg path rest
termination_by es => (sizeOf es, 0)
end

/-- The static launch-time partition: for each non-ignored root-level
directory, the worker name (the directory's name) and the set of paths
its `_crawl_dir` call lists. -/
def workerTargets (cfg : ScanCfg) (path : String) : List FSEntry → List (String × List String)
  | [] => []
  | .dir n sub _ :: rest =>
    if ignoreDir cfg.ignoreDirs cfg.scanHiddenDirs (path ++ "/" ++ n) n then
      workerTargets cfg path rest
    else (n, listedPaths cfg (path ++ "/" ++ n) sub) :: workerTargets cfg path rest
  | .file _ :: rest => workerTargets cfg path rest
  | .other _ :: rest => workerTargets cfg path rest

theorem listedChildren_nil (cfg : ScanCfg) (path : String) :
    listedChildren cfg path [] = [] := by
  rw [listedChildren]

theorem listedChildren_dir (cfg : ScanCfg) (path n : String) (sub : List FSEntry)
    (sf : Option String) (rest : List FSEntry) :
    listedChildren cfg path (.dir n sub sf :: rest) =
      (if ignoreDir cfg.ignoreDirs cfg.scanHiddenDirs (path ++ "/" ++ n) n then []
       else listedPaths cfg (path ++ "/" ++ n) sub) ++ listedChildren cfg path rest := by
  rw [listedChildren]

theorem listedChildren_file (cfg : ScanCfg) (path n : String) (rest : List FSEntry) :
    listedChildren cfg path (.file n :: rest) = listedChildren cfg path rest := by
  rw [listedChildren]

theorem listedChildren_other (cfg : ScanCfg) (path n : String) (rest : List FSEntry) :
    listedChildren cfg path (.other n :: rest) = listedChildren cfg path rest := by
  rw [listedChildren]

theorem workerTargets_nil (cfg : ScanCfg) (path : String) :
    workerTargets cfg path [] = [] := by
  rw [workerTargets]

theorem workerTargets_dir (cfg : ScanCfg) (path n : String) (sub : List FSEntry)
    (sf : Option String) (rest : List FSEntry) :
    workerTargets cfg path (.dir n sub sf :: rest) =
      if ignoreDir cfg.ignoreDirs cfg.scanHiddenDirs (path ++ "/" ++ n) n then
        workerTargets cfg path rest
      else (n, listedPaths cfg (path ++ "/" ++ n) sub) :: workerTargets cfg path rest := by
  rw [workerTargets]

theorem workerTargets_file (cfg : ScanCfg) (path n : String) (rest : List FSEntry) :
    workerTargets cfg path (.file n :: rest) = workerTargets cfg path rest := by
  rw [workerTargets]

theorem workerTargets_other (cfg : ScanCfg) (path n : String) (rest : List FSEntry) :
    workerTargets cfg path (.other n :: rest) = workerTargets cfg path rest := by
  rw [workerTargets]

theorem listedChildren_ext : ∀ es : List FSEntry, ∀ cfg : ScanCfg, ∀ path : String,
    ∀ q ∈ listedChildren cfg path es, ∃ s : List Char, q.data = path.data ++ '/' :: s := by
  refine sizeOf_strongInd (fun es => ∀ cfg path, ∀ q ∈ listedChildren cfg path es,
    ∃ s : List Char, q.data = path.data ++ '/' :: s) ?_
  intro es ih cfg path q hq
  cases es with
  | nil =>
    rw [listedChildren_nil] at hq
    simp at hq
  | cons e rest =>
    have hrest_lt : sizeOf rest < sizeOf (e :: rest) := by
      simp
    cases e with
    | file n =>
      rw [listedChildren_file] at hq
      exact ih rest hrest_lt cfg path q hq
    | other n =>
      rw [listedChildren_other] at hq
      exact ih rest hrest_lt cfg path q hq
    | dir n sub sf =>
      rw [listedChildren_dir] at hq
      rcases List.mem_append.mp hq with h1 | h1
      · by_cases hig : ignoreDir cfg.ignoreDirs cfg.scanHiddenDirs
            (path ++ "/" ++ n) n = true
        · rw [if_pos hig] at h1
          simp at h1
        · rw [if_neg hig] at h1
          rw [listedPaths] at h1
          rcases List.mem_cons.mp h1 with heq | h2
          · refine ⟨n.data, ?_⟩
            rw [heq]
            simp
          · have hsub_lt : sizeOf sub < sizeOf (FSEntry.dir n sub sf :: rest) := by
              simp
              omega
            obtain ⟨s', hs'⟩ := ih sub hsub_lt cfg (path ++ "/" ++ n) q h2
            refine ⟨n.data ++ '/' :: s', ?_⟩
            rw [hs']
            simp
      · exact ih rest hrest_lt cfg path q h1

/-- Every path listed by the worker owning root-level directory `n` is
`path/n` itself or a proper extension `path/n/...`. -/
theorem worker_mem_ext (cfg : ScanCfg) (path n : String) (sub : List FSEntry) :
    ∀ q ∈ listedPaths cfg (path ++ "/" ++ n) sub,
      ∃ t : List Char, q.data = path.data ++ '/' :: (n.data ++ t) ∧
        (t = [] ∨ ∃ s : List Char, t = '/' :: s) := by
  intro q hq
  rw [listedPaths] at hq
  rcases List.mem_cons.mp hq with heq | h2
  · refine ⟨[], ?_, Or.inl rfl⟩
    rw [heq]
    simp
  · obtain ⟨s', hs'⟩ := listedChildren_ext sub cfg (path ++ "/" ++ n) q h2
    refine ⟨'/' :: s', ?_, Or.inr ⟨s', rfl⟩⟩
    rw [hs']
    simp

theorem append_sep_inj {α : Type} [DecidableEq α] (sep : α) :
    ∀ (a b c d : List α), ¬ sep ∈ a → ¬ sep ∈ b →
      a ++ sep :: c = b ++ sep :: d → a = b := by
  intro a
  induction a with
  | nil =>
    intro b c d ha hb h
    cases b with
    | nil => rfl
    | cons y bs =>
      simp only [List.nil_append, List.cons_append, List.cons.injEq] at h
      rw [h.1] at hb
      exact absurd (List.mem_cons_self _ _) hb
  | cons x as ih =>
    intro b c d ha hb h
    cases b with
    | nil =>
      simp only [List.nil_append, List.cons_append, List.cons.injEq] at h
      rw [← h.1] at ha
      exact absurd (List.mem_cons_self _ _) ha
    | cons y bs =>
      simp only [List.cons_append, List.cons.injEq] at h
      rw [h.1, ih bs c d (fun hm => ha (List.mem_cons_of_mem _ hm))
        (fun hm => hb (List.mem_cons_of_mem _ hm)) h.2]

theorem ext_unique {path n1 n2 : String} {q : String}
    (hsl1 : ¬ '/' ∈ n1.data) (hsl2 : ¬ '/' ∈ n2.data)
    (h1 : ∃ t : List Char, q.data = path.data ++ '/' :: (n1.data ++ t) ∧
      (t = [] ∨ ∃ s : List Char, t = '/' :: s))
    (h2 : ∃ t : List Char, q.data = path.data ++ '/' :: (n2.data ++ t) ∧
      (t = [] ∨ ∃ s : List Char, t = '/' :: s)) : n1 = n2 := by
  obtain ⟨t1, he1, hc1⟩ := h1
  obtain ⟨t2, he2, hc2⟩ := h2
  rw [he1] at he2
  have hkey : n1.data ++ t1 = n2.data ++ t2 := by
    have := List.append_cancel_left he2
    exact (List.cons.inj this).2
  have hdata : n1.data = n2.data := by
    rcases hc1 with rfl | ⟨s1, rfl⟩
    · rcases hc2 with rfl | ⟨s2, rfl⟩
      · simpa using hkey
      · rw [List.append_nil] at hkey
        rw [hkey] at hsl1
        exact absurd (List.mem_append_right _ (List.mem_cons_self _ _)) hsl1
    · rcases hc2 with rfl | ⟨s2, rfl⟩
      · rw [List.append_nil] at hkey
        rw [← hkey] at hsl2
        exact absurd (List.mem_append_right _ (List.mem_cons_self _ _)) hsl2
      · exact append_sep_inj '/' n1.data n2.data s1 s2 hsl1 hsl2 hkey
  cases n1
  cases n2
  exact congrArg String.mk (by simpa using hdata)

theorem workerTargets_mem : ∀ es : List FSEntry, ∀ cfg : ScanCfg, ∀ path : String,
    ∀ w ∈ workerTargets cfg path es, w.1 ∈ dirNames es ∧
      ∀ q ∈ w.2, ∃ t : List Char, q.data = path.data ++ '/' :: (w.1.data ++ t) ∧
        (t = [] ∨ ∃ s : List Char, t = '/' :: s) := by
  intro es
  induction es with
  | nil =>
    intro cfg path w hw
    rw [workerTargets_nil] at hw
    simp at hw
  | cons e rest ih =>
    intro cfg path w hw
    cases e with
    | file n =>
      rw [workerTargets_file] at hw
      obtain ⟨hm, hp⟩ := ih cfg path w hw
      exact ⟨by rw [dirNames_file]; exact hm, hp⟩
    | other n =>
      rw [workerTargets_other] at hw
      obtain ⟨hm, hp⟩ := ih cfg path w hw
      exact ⟨by rw [dirNames_other]; exact hm, hp⟩
    | dir n sub sf =>
      rw [workerTargets_dir] at hw
      by_cases hig : ignoreDir cfg.ignoreDirs cfg.scanHiddenDirs
          (path ++ "/" ++ n) n = true
      · rw [if_pos hig] at hw
        obtain ⟨hm, hp⟩ := ih cfg path w hw
        exact ⟨by rw [dirNames_dir]; exact List.mem_cons_of_mem _ hm, hp⟩
      · rw [if_neg hig] at hw
        rcases List.mem_cons.mp hw with heq | h1
        · rw [heq]
          refine ⟨by rw [dirNames_dir]; exact List.mem_cons_self _ _, ?_⟩
          exact worker_mem_ext cfg path n sub
        · obtain ⟨hm, hp⟩ := ih cfg path w h1
          exact ⟨by rw [dirNames_dir]; exact List.mem_cons_of_mem _ hm, hp⟩

theorem workerTargets_keys : ∀ es : List FSEntry, ∀ cfg : ScanCfg, ∀ path : String,
    (workerTargets cfg path es).map Prod.fst = (stubChildren cfg path es).map Prod.fst := by
  intro es
  induction es with
  | nil =>
    intro cfg path
    rw [workerTargets_nil, stubChildren_nil]
    simp
  | cons e rest ih =>
    intro cfg path
    cases e with
    | file n => rw [workerTargets_file, stubChildren_file]; exact ih cfg path
    | other n => rw [workerTargets_other, stubChildren_other]; exact ih cfg path
    | dir n sub sf =>
      rw [workerTargets_dir, stubChildren_dir]
      by_cases hig : ignoreDir cfg.ignoreDirs cfg.scanHiddenDirs
          (path ++ "/" ++ n) n = true
      · rw [if_pos hig, if_pos hig]
        exact ih cfg path
      · rw [if_neg hig, if_neg hig, List.map_cons, List.map_cons, ih cfg path]

/-- **Claim C9.**  The root-level subtrees are statically partitioned
among the workers at launch: the workers are exactly the root-level
child buckets (`workerTargets` and the skim's stub children have the
same keys in the same order), and — provided sibling names at the root
are distinct and directory names contain no `/`, both guaranteed by the
operating system — the sets of directory paths any two distinct workers
list are disjoint, so no two workers ever list the same directory or
write to the same bucket. -/
theorem claim_C9_worker_partition (cfg : ScanCfg) (path : String) (es : List FSEntry)
    (hnodup : (dirNames es).Nodup)
    (hslash : ∀ n ∈ dirNames es, ¬ '/' ∈ n.data) :
    (workerTargets cfg path es).map Prod.fst = (stubChildren cfg path es).map Prod.fst ∧
    List.Pairwise (fun w1 w2 => ∀ q, q ∈ w1.2 → ¬ q ∈ w2.2)
      (workerTargets cfg path es) := by
  refine ⟨workerTargets_keys es cfg path, ?_⟩
  induction es with
  | nil =>
    rw [workerTargets_nil]
    exact List.Pairwise.nil
  | cons e rest ih =>
    cases e with
    | file n =>
      rw [workerTargets_file]
      exact ih (by rwa [dirNames_file] at hnodup)
        (fun m hm => hslash m (by rw [dirNames_file]; exact hm))
    | other n =>
      rw [workerTargets_other]
      exact ih (by rwa [dirNames_other] at hnodup)
        (fun m hm => hslash m (by rw [dirNames_other]; exact hm))
    | dir n sub sf =>
      rw [dirNames_dir] at hnodup hslash
      have hnodup' : (dirNames rest).Nodup := hnodup.of_cons
      have hnotin : ¬ n ∈ dirNames rest := (List.nodup_cons.mp hnodup).1
      have hslash' : ∀ m ∈ dirNames rest, ¬ '/' ∈ m.data :=
        fun m hm => hslash m (List.mem_cons_of_mem _ hm)
      have hsln : ¬ '/' ∈ n.data := hslash n (List.mem_cons_self _ _)
      rw [workerTargets_dir]
      by_cases hig : ignoreDir cfg.ignoreDirs cfg.scanHiddenDirs
          (path ++ "/" ++ n) n = true
      · rw [if_pos hig]
        exact ih hnodup' hslash'
      · rw [if_neg hig]
        refine List.Pairwise.cons ?_ (ih hnodup' hslash')
        intro w2 hw2 q hq1 hq2
        obtain ⟨hm2, hp2⟩ := workerTargets_mem rest cfg path w2 hw2
        have h1 := worker_mem_ext cfg path n sub q hq1
        have h2 := hp2 q hq2
        have : n = w2.1 := ext_unique hsln (hslash' w2.1 hm2) h1 h2
        rw [this] at hnotin
        exact hnotin hm2

/-- Witness for C9: two root-level directories `a` (with a nested
subdirectory) and `b`. -/
theorem claim_C9_witness :
    (dirNames [FSEntry.dir "a" [FSEntry.dir "x" [] none] none,
        FSEntry.dir "b" [] none]).Nodup ∧
    (∀ n ∈ dirNames [FSEntry.dir "a" [FSEntry.dir "x" [] none] none,
        FSEntry.dir "b" [] none], ¬ '/' ∈ n.data) ∧
    ((workerTargets ⟨[], true, true, none, none⟩ "/r"
        [FSEntry.dir "a" [FSEntry.dir "x" [] none] none, FSEntry.dir "b" [] none]).map
          Prod.fst =
      (stubChildren ⟨[], true, true, none, none⟩ "/r"
        [FSEntry.dir "a" [FSEntry.dir "x" [] none] none,
         FSEntry.dir "b" [] none]).map Prod.fst ∧
    List.Pairwise (fun w1 w2 => ∀ q, q ∈ w1.2 → ¬ q ∈ w2.2)
      (workerTargets ⟨[], true, true, none, none⟩ "/r"
        [FSEntry.dir "a" [FSEntry.dir "x" [] none] none, FSEntry.dir "b" [] none])) := by
  have hnodup : (dirNames [FSEntry.dir "a" [FSEntry.dir "x" [] none] none,
      FSEntry.dir "b" [] none]).Nodup := by
    rw [dirNames_dir, dirNames_dir, dirNames_nil]
    decide
  have hslash : ∀ n ∈ dirNames [FSEntry.dir "a" [FSEntry.dir "x" [] none] none,
      FSEntry.dir "b" [] none], ¬ '/' ∈ n.data := by
    rw [dirNames_dir, dirNames_dir, dirNames_nil]
    decide
  exact ⟨hnodup, hslash, claim_C9_worker_partition ⟨[], true, true, none, none⟩ "/r"
    [FSEntry.dir "a" [FSEntry.dir "x" [] none] none, FSEntry.dir "b" [] none]
    hnodup hslash⟩
